import Mathlib

/-!
Verification of the array core of `src/src/algorithm.rs`: a shallow
embedding of its shape kernels (transpose, rotate, take, drop, pick,
windows, reshape, member, merge sort) together with proofs about them.

Machine integers of the source are modelled as `Nat`/`Int` (the Rust code
never overflows `usize`/`isize` in the modelled domain), `f64` payloads as
`ℚ` (the spec disallows NaN in every ordered context and no modelled claim
depends on float rounding), fallible operations as `Except String` or
`Option` (`.error`/`none` covers both returned runtime errors and Rust
panics; each such site is marked in comments).

The repository's `array.rs`/`value.rs` are not part of the given sources;
the handful of container operations they provide (`into_values`,
`into_cells`, `Array::from`, `normalized`, the `Ord` instance on values)
are modelled from the spec's §3 data model, as marked on each definition.
-/

namespace Uiua

/-! ### Generic list helpers -/

/-- Split a list into consecutive chunks of `k` elements, fuelled so that it
reduces definitionally; `chunkFuel k fuel l` performs at most `fuel` steps. -/
def chunkFuel (k : Nat) : Nat → List α → List (List α)
  | 0, _ => []
  | _ + 1, [] => []
  | fuel + 1, l => l.take k :: chunkFuel k fuel (l.drop k)

/-- Split a list into consecutive chunks of `k` elements (models Rust's
`chunks`/`chunks_exact` on exact multiples). -/
def chunkList (k : Nat) (l : List α) : List (List α) :=
  if k = 0 then [] else chunkFuel k l.length l

/-- All windows of width `w` over a list, in order of their start position
(models Rust's slice `windows`, which requires `w ≥ 1`). -/
def listWindows (w : Nat) (l : List α) : List (List α) :=
  (List.range (l.length + 1 - w)).map (fun i => (l.drop i).take w)

/-- Row-major flat position of a multi-index in a shape. -/
def flatIdx : List Nat → List Nat → Nat
  | _ :: ss, i :: is => i * ss.prod + flatIdx ss is
  | _, _ => 0

/-- Left rotation of a list by `m` positions. -/
def listRot (m : Nat) (l : List α) : List α :=
  l.drop m ++ l.take m

/-- Effectful map over `Option` that stops at the first `none` (models a
Rust loop whose body may panic). -/
def mapOpt (f : α → Option β) : List α → Option (List β)
  | [] => some []
  | a :: as =>
    match f a with
    | none => none
    | some b =>
      match mapOpt f as with
      | none => none
      | some bs => some (b :: bs)

/-- Effectful map over `Except` that stops at the first error (models a
Rust loop whose body may return `Err` or panic). -/
def mapExc (f : α → Except String β) : List α → Except String (List β)
  | [] => .ok []
  | a :: as =>
    match f a with
    | .error e => .error e
    | .ok b =>
      match mapExc f as with
      | .error e => .error e
      | .ok bs => .ok (b :: bs)

/-! ### Chunk lemmas -/

theorem chunkFuel_eq_of_le (k : Nat) (hk : k ≠ 0) :
    ∀ (f : Nat) (l : List α), l.length ≤ f → chunkFuel k f l = chunkFuel k l.length l := by
  intro f
  induction f using Nat.strong_induction_on with
  | _ f ih =>
    intro l hf
    cases f with
    | zero =>
      have : l = [] := List.eq_nil_of_length_eq_zero (Nat.le_zero.mp hf)
      subst this
      rfl
    | succ f =>
      cases l with
      | nil => rfl
      | cons a as =>
        simp only [List.length_cons, chunkFuel]
        have hd : (List.drop k (a :: as)).length ≤ as.length := by
          simp only [List.length_drop, List.length_cons]
          omega
        have h1 : chunkFuel k f (List.drop k (a :: as))
            = chunkFuel k (List.drop k (a :: as)).length (List.drop k (a :: as)) := by
          apply ih f (Nat.lt_succ_self f)
          simp only [List.length_cons] at hf
          simp only [List.length_drop, List.length_cons]
          omega
        have h2 : chunkFuel k as.length (List.drop k (a :: as))
            = chunkFuel k (List.drop k (a :: as)).length (List.drop k (a :: as)) := by
          apply ih as.length
          · simp only [List.length_cons] at hf; omega
          · exact hd
        rw [h1, h2]

theorem chunkList_nil (k : Nat) : chunkList k ([] : List α) = [] := by
  cases k <;> rfl

theorem chunkList_step (k : Nat) (hk : k ≠ 0) (l : List α) (hl : l ≠ []) :
    chunkList k l = l.take k :: chunkList k (l.drop k) := by
  unfold chunkList
  rw [if_neg hk, if_neg hk]
  cases l with
  | nil => exact absurd rfl hl
  | cons a as =>
    simp only [List.length_cons, chunkFuel]
    congr 1
    rw [chunkFuel_eq_of_le k hk as.length (List.drop k (a :: as))
      (by simp only [List.length_drop, List.length_cons]; omega)]

theorem chunkFuel_flatten (k : Nat) (hk : k ≠ 0) :
    ∀ (f : Nat) (l : List α), l.length ≤ f → k ∣ l.length → (chunkFuel k f l).flatten = l := by
  intro f
  induction f with
  | zero =>
    intro l hf _
    have : l = [] := List.eq_nil_of_length_eq_zero (Nat.le_zero.mp hf)
    subst this
    rfl
  | succ f ih =>
    intro l hf hdvd
    cases l with
    | nil => rfl
    | cons a as =>
      simp only [chunkFuel, List.flatten_cons]
      rw [ih (List.drop k (a :: as))
        (by simp only [List.length_drop, List.length_cons]
            simp only [List.length_cons] at hf
            omega)
        (by simp only [List.length_drop]; exact Nat.dvd_sub' hdvd dvd_rfl)]
      exact List.take_append_drop k (a :: as)

theorem chunkList_flatten (k : Nat) (hk : k ≠ 0) (l : List α) (hdvd : k ∣ l.length) :
    (chunkList k l).flatten = l := by
  unfold chunkList
  rw [if_neg hk]
  exact chunkFuel_flatten k hk l.length l (le_refl _) hdvd

theorem chunkFuel_length (k : Nat) (hk : k ≠ 0) :
    ∀ (f : Nat) (l : List α), l.length ≤ f → k ∣ l.length →
      (chunkFuel k f l).length = l.length / k := by
  intro f
  induction f with
  | zero =>
    intro l hf _
    have : l = [] := List.eq_nil_of_length_eq_zero (Nat.le_zero.mp hf)
    subst this
    simp [chunkFuel]
  | succ f ih =>
    intro l hf hdvd
    cases l with
    | nil => simp [chunkFuel]
    | cons a as =>
      have hk' : 0 < k := Nat.pos_of_ne_zero hk
      have hle : k ≤ (a :: as).length := Nat.le_of_dvd (by simp) hdvd
      simp only [chunkFuel, List.length_cons]
      rw [ih (List.drop k (a :: as))
        (by simp only [List.length_drop, List.length_cons]
            simp only [List.length_cons] at hf
            omega)
        (by simp only [List.length_drop]; exact Nat.dvd_sub' hdvd dvd_rfl)]
      simp only [List.length_drop, List.length_cons]
      rcases hdvd with ⟨c, hc⟩
      simp only [List.length_cons] at hc
      have hc1 : 1 ≤ c := by
        rcases Nat.eq_zero_or_pos c with h0 | h1
        · subst h0; simp at hc
        · exact h1
      rw [hc, Nat.mul_div_cancel_left _ hk']
      have : k * c - k = k * (c - 1) := by
        rw [Nat.mul_sub]
        omega
      rw [this, Nat.mul_div_cancel_left _ hk']
      omega

theorem chunkList_length (k : Nat) (hk : k ≠ 0) (l : List α) (hdvd : k ∣ l.length) :
    (chunkList k l).length = l.length / k := by
  unfold chunkList
  rw [if_neg hk]
  exact chunkFuel_length k hk l.length l (le_refl _) hdvd

theorem chunkFuel_mem_length (k : Nat) (hk : k ≠ 0) :
    ∀ (f : Nat) (l : List α), l.length ≤ f → k ∣ l.length →
      ∀ c ∈ chunkFuel k f l, c.length = k := by
  intro f
  induction f with
  | zero =>
    intro l hf _ c hc
    have : l = [] := List.eq_nil_of_length_eq_zero (Nat.le_zero.mp hf)
    subst this
    simp [chunkFuel] at hc
  | succ f ih =>
    intro l hf hdvd c hc
    cases l with
    | nil => simp [chunkFuel] at hc
    | cons a as =>
      have hle : k ≤ (a :: as).length := Nat.le_of_dvd (by simp) hdvd
      simp only [chunkFuel, List.mem_cons] at hc
      rcases hc with h | h
      · subst h
        simp only [List.length_take, List.length_cons]
        simp only [List.length_cons] at hle
        omega
      · exact ih (List.drop k (a :: as))
          (by simp only [List.length_drop, List.length_cons]
              simp only [List.length_cons] at hf
              omega)
          (by simp only [List.length_drop]; exact Nat.dvd_sub' hdvd dvd_rfl) c h

theorem chunkList_mem_length (k : Nat) (hk : k ≠ 0) (l : List α) (hdvd : k ∣ l.length) :
    ∀ c ∈ chunkList k l, c.length = k := by
  unfold chunkList
  rw [if_neg hk]
  exact chunkFuel_mem_length k hk l.length l (le_refl _) hdvd

theorem chunkList_append_aux (k : Nat) (hk : k ≠ 0) :
    ∀ (n : Nat) (A B : List α), A.length ≤ n → k ∣ A.length →
      chunkList k (A ++ B) = chunkList k A ++ chunkList k B := by
  intro n
  induction n with
  | zero =>
    intro A B hn _
    have : A = [] := List.eq_nil_of_length_eq_zero (Nat.le_zero.mp hn)
    subst this
    simp [chunkList_nil]
  | succ n ih =>
    intro A B hn hdvd
    cases hA : A with
    | nil => simp [chunkList_nil]
    | cons a as =>
      rw [← hA]
      have hne : A ≠ [] := by rw [hA]; simp
      have hpos : 0 < A.length := List.length_pos.mpr hne
      have hle : k ≤ A.length := Nat.le_of_dvd hpos hdvd
      have hneAB : A ++ B ≠ [] := by
        intro h
        exact hne (List.append_eq_nil.mp h).1
      rw [chunkList_step k hk (A ++ B) hneAB, chunkList_step k hk A hne]
      rw [List.take_append_of_le_length hle, List.drop_append_of_le_length hle]
      rw [ih (A.drop k) B
        (by simp only [List.length_drop]
            rw [hA] at hn ⊢
            simp only [List.length_cons] at hn ⊢
            omega)
        (by simp only [List.length_drop]; exact Nat.dvd_sub' hdvd dvd_rfl)]
      simp

theorem chunkList_append (k : Nat) (hk : k ≠ 0) (A B : List α) (hdvd : k ∣ A.length) :
    chunkList k (A ++ B) = chunkList k A ++ chunkList k B :=
  chunkList_append_aux k hk A.length A B (le_refl _) hdvd

theorem chunkList_drop (k : Nat) (hk : k ≠ 0) :
    ∀ (m : Nat) (l : List α), chunkList k (l.drop (m * k)) = (chunkList k l).drop m := by
  intro m
  induction m with
  | zero => simp
  | succ m ih =>
    intro l
    cases hl : l with
    | nil => simp [chunkList_nil]
    | cons a as =>
      rw [← hl]
      have hne : l ≠ [] := by rw [hl]; simp
      rw [chunkList_step k hk l hne]
      have : (m + 1) * k = k + m * k := by ring
      rw [this, ← List.drop_drop, ih (l.drop k)]
      simp

theorem chunkList_take (k : Nat) (hk : k ≠ 0) :
    ∀ (m : Nat) (l : List α), chunkList k (l.take (m * k)) = (chunkList k l).take m := by
  intro m
  induction m with
  | zero => simp [chunkList_nil]
  | succ m ih =>
    intro l
    cases hl : l with
    | nil => simp [chunkList_nil]
    | cons a as =>
      rw [← hl]
      have hne : l ≠ [] := by rw [hl]; simp
      have hpos : 0 < l.length := List.length_pos.mpr hne
      have htne : l.take ((m + 1) * k) ≠ [] := by
        intro h
        have := congrArg List.length h
        simp only [List.length_take, List.length_nil] at this
        have hk1 : 0 < (m + 1) * k := by positivity
        omega
      rw [chunkList_step k hk l hne, chunkList_step k hk _ htne]
      rw [List.take_take]
      have hmin : min k ((m + 1) * k) = k := by
        apply Nat.min_eq_left
        calc k = 1 * k := by ring
          _ ≤ (m + 1) * k := Nat.mul_le_mul_right k (by omega)
      rw [hmin, List.drop_take]
      have : (m + 1) * k - k = m * k := by
        rw [Nat.succ_mul]
        omega
      rw [this, ih (l.drop k)]
      simp

/-! ### List rotation lemmas -/

theorem listRot_zero (l : List α) : listRot 0 l = l := by
  simp [listRot]

theorem listRot_length (m : Nat) (l : List α) : (listRot m l).length = l.length := by
  simp only [listRot, List.length_append, List.length_drop, List.length_take]
  omega

theorem threeRev_eq_listRot (m : Nat) (l : List α) :
    ((l.take m).reverse ++ (l.drop m).reverse).reverse = listRot m l := by
  simp [listRot]

theorem listRot_inv (m : Nat) (l : List α) (h : m ≤ l.length) :
    listRot (l.length - m) (listRot m l) = l := by
  unfold listRot
  have hdl : (l.drop m).length = l.length - m := by
    simp only [List.length_drop]
  rw [List.drop_append_of_le_length (le_of_eq hdl.symm),
    List.take_append_of_le_length (le_of_eq hdl.symm)]
  have h1 : (l.drop m).drop (l.length - m) = [] := by
    apply List.drop_eq_nil_of_le
    simp only [List.length_drop]
    omega
  have h2 : (l.drop m).take (l.length - m) = l.drop m := by
    apply List.take_of_length_le
    simp only [List.length_drop]
    omega
  rw [h1, h2]
  simp

theorem chunkList_listRot (k : Nat) (hk : k ≠ 0) (m : Nat) (l : List α)
    (hdvd : k ∣ l.length) (hm : m * k ≤ l.length) :
    chunkList k (listRot (m * k) l) = listRot m (chunkList k l) := by
  unfold listRot
  rw [chunkList_append k hk _ _
    (by simp only [List.length_drop]; exact Nat.dvd_sub' hdvd (dvd_mul_left k m))]
  rw [chunkList_drop k hk m l, chunkList_take k hk m l]

/-! ### Lemmas for `mapOpt` and `mapExc` -/

theorem mapOpt_eq_some_iff {f : α → Option β} :
    ∀ {l : List α} {r : List β},
      mapOpt f l = some r ↔ List.Forall₂ (fun a b => f a = some b) l r := by
  intro l
  induction l with
  | nil =>
    intro r
    constructor
    · intro h
      simp only [mapOpt] at h
      cases h
      exact List.Forall₂.nil
    · intro h
      cases h
      rfl
  | cons a as ih =>
    intro r
    constructor
    · intro h
      simp only [mapOpt] at h
      cases hfa : f a with
      | none => rw [hfa] at h; simp at h
      | some b =>
        rw [hfa] at h
        cases hrest : mapOpt f as with
        | none => rw [hrest] at h; simp at h
        | some bs =>
          rw [hrest] at h
          simp only [Option.some.injEq] at h
          subst h
          exact List.Forall₂.cons hfa (ih.mp hrest)
    · intro h
      cases h with
      | cons hb hrest =>
        simp only [mapOpt, hb, ih.mpr hrest]

theorem mapExc_eq_ok_iff {f : α → Except String β} :
    ∀ {l : List α} {r : List β},
      mapExc f l = .ok r ↔ List.Forall₂ (fun a b => f a = .ok b) l r := by
  intro l
  induction l with
  | nil =>
    intro r
    constructor
    · intro h
      simp only [mapExc] at h
      cases h
      exact List.Forall₂.nil
    · intro h
      cases h
      rfl
  | cons a as ih =>
    intro r
    constructor
    · intro h
      simp only [mapExc] at h
      cases hfa : f a with
      | error e => rw [hfa] at h; simp at h
      | ok b =>
        rw [hfa] at h
        cases hrest : mapExc f as with
        | error e => rw [hrest] at h; simp at h
        | ok bs =>
          rw [hrest] at h
          simp only [Except.ok.injEq] at h
          subst h
          exact List.Forall₂.cons hfa (ih.mp hrest)
    · intro h
      cases h with
      | cons hb hrest =>
        simp only [mapExc, hb, ih.mpr hrest]

theorem mapOpt_map_eq (f : α → Option β) (g : α → β) :
    ∀ (l : List α), (∀ a ∈ l, f a = some (g a)) → mapOpt f l = some (l.map g) := by
  intro l
  induction l with
  | nil => intro _; rfl
  | cons a as ih =>
    intro h
    simp only [mapOpt, h a (by simp), Option.bind_eq_bind, Option.some_bind,
      ih (fun x hx => h x (by simp [hx])), List.map_cons]

/-! ### Flat-index lemmas -/

theorem flatIdx_nil_left (idx : List Nat) : flatIdx [] idx = 0 := by
  cases idx <;> rfl

theorem flatIdx_snoc (ss : List Nat) (is : List Nat) (s0 i : Nat)
    (hlen : is.length = ss.length) :
    flatIdx (ss ++ [s0]) (is ++ [i]) = flatIdx ss is * s0 + i := by
  induction ss generalizing is with
  | nil =>
    have : is = [] := List.eq_nil_of_length_eq_zero hlen
    subst this
    simp [flatIdx]
  | cons s ss ih =>
    cases is with
    | nil => simp at hlen
    | cons j js =>
      simp only [List.length_cons] at hlen
      have hstep : flatIdx ((s :: ss) ++ [s0]) ((j :: js) ++ [i])
          = j * (ss ++ [s0]).prod + flatIdx (ss ++ [s0]) (js ++ [i]) := by
        simp only [List.cons_append]
        rfl
      rw [hstep, ih js (by omega)]
      simp only [flatIdx, List.prod_append, List.prod_cons, List.prod_nil, mul_one]
      ring

theorem flatIdx_lt (shape : List Nat) (idx : List Nat)
    (h : List.Forall₂ (fun i s => i < s) idx shape) :
    flatIdx shape idx < shape.prod ∨ (shape = [] ∧ flatIdx shape idx = 0) := by
  induction h with
  | nil => right; exact ⟨rfl, rfl⟩
  | @cons i s is ss his hrest ih =>
    left
    simp only [flatIdx, List.prod_cons]
    rcases ih with h1 | ⟨h1, h2⟩
    · calc i * ss.prod + flatIdx ss is < i * ss.prod + ss.prod := by omega
        _ = (i + 1) * ss.prod := by ring
        _ ≤ s * ss.prod := Nat.mul_le_mul_right _ (by omega)
    · subst h1
      simp only [List.prod_nil, mul_one, h2, Nat.add_zero]
      simpa using his

/-! ### The data model

`Value` (`value.rs`, not among the given sources) is modelled from the
spec §3: a tagged union of IEEE double (modelled as `ℚ`; the spec
disallows NaN in every ordered context), Unicode scalar, opaque function
handle, and owned array.  `Array` (`array.rs`, not among the given
sources) is modelled from the spec §3 as a shape together with flat
row-major storage; the three storage variants (numbers / chars / boxed
values) are represented uniformly by boxed storage, which the spec's I2
declares observably equivalent ("may be collapsed ... by the normalize
policy"). -/
inductive Val : Type where
  | num (x : ℚ)
  | ch (c : Char)
  | func (n : Nat)
  | arr (shape : List Nat) (data : List Val)

mutual

/-- Boolean structural equality on values, needed because `deriving
DecidableEq` does not handle the nested inductive. -/
def valBeq : Val → Val → Bool
  | .num a, .num b => a == b
  | .ch a, .ch b => a == b
  | .func a, .func b => a == b
  | .arr s d, .arr t e => s == t && valBeqList d e
  | _, _ => false

/-- List version of `valBeq`. -/
def valBeqList : List Val → List Val → Bool
  | [], [] => true
  | a :: as, b :: bs => valBeq a b && valBeqList as bs
  | _, _ => false

end

mutual

theorem valBeq_iff : ∀ a b : Val, valBeq a b = true ↔ a = b
  | .num _, .num _ => by simp [valBeq]
  | .num _, .ch _ => by simp [valBeq]
  | .num _, .func _ => by simp [valBeq]
  | .num _, .arr _ _ => by simp [valBeq]
  | .ch _, .num _ => by simp [valBeq]
  | .ch _, .ch _ => by simp [valBeq]
  | .ch _, .func _ => by simp [valBeq]
  | .ch _, .arr _ _ => by simp [valBeq]
  | .func _, .num _ => by simp [valBeq]
  | .func _, .ch _ => by simp [valBeq]
  | .func _, .func _ => by simp [valBeq]
  | .func _, .arr _ _ => by simp [valBeq]
  | .arr _ _, .num _ => by simp [valBeq]
  | .arr _ _, .ch _ => by simp [valBeq]
  | .arr _ _, .func _ => by simp [valBeq]
  | .arr s d, .arr t e => by
    simp [valBeq, valBeqList_iff d e]

theorem valBeqList_iff : ∀ d e : List Val, valBeqList d e = true ↔ d = e
  | [], [] => by simp [valBeqList]
  | [], _ :: _ => by simp [valBeqList]
  | _ :: _, [] => by simp [valBeqList]
  | a :: as, b :: bs => by
    simp [valBeqList, valBeq_iff a b, valBeqList_iff as bs]

end

instance : DecidableEq Val := fun a b =>
  decidable_of_iff (valBeq a b = true) (valBeq_iff a b)

/-- An array: a shape and flat row-major storage.  Modelled from the spec
§3 (`array.rs` is not among the given sources); the well-formedness
predicate `Arr.wf` is the spec's invariant I1. -/
structure Arr where
  shape : List Nat
  data : List Val
deriving DecidableEq

/-- Spec invariant I1 (rectangularity): storage length is the shape product. -/
def Arr.wf (a : Arr) : Prop := a.data.length = a.shape.prod

instance (a : Arr) : Decidable a.wf := by
  unfold Arr.wf
  infer_instance

/-- Box an array back into a value. -/
def Arr.toVal (a : Arr) : Val := .arr a.shape a.data

/-- `Value::coerce_array` / `Value::into_array`: an array value yields its
array, a scalar is lifted to a rank-0 array holding it (spec §3, I3). -/
def coerceArr : Val → Arr
  | .arr s d => ⟨s, d⟩
  | v => ⟨[], [v]⟩

mutual

/-- No function value occurs anywhere in a value (so a fill value exists). -/
def funcFree : Val → Bool
  | .num _ => true
  | .ch _ => true
  | .func _ => false
  | .arr _ d => funcFreeList d

/-- List version of `funcFree`. -/
def funcFreeList : List Val → Bool
  | [] => true
  | v :: vs => funcFree v && funcFreeList vs

end

mutual

/-- `Value::fill_value` (`algorithm.rs` lines 277–295): 0 for numbers,
space for characters, an error for functions, and elementwise fill for
arrays (the source maps `fill_value` over the major cells and reassembles
with the same shape, which on the flat storage model is an elementwise
map; `into_values` and `Array::from` of the missing `array.rs` are
modelled from the spec §3). -/
def fill_value : Val → Except String Val
  | .num _ => .ok (.num 0)
  | .ch _ => .ok (.ch ' ')
  | .func _ => .error "Functions do not have a fill value"
  | .arr s d => (fillList d).map (.arr s)

/-- List version of `fill_value`. -/
def fillList : List Val → Except String (List Val)
  | [] => .ok []
  | v :: vs =>
    match fill_value v with
    | .error e => .error e
    | .ok w =>
      match fillList vs with
      | .error e => .error e
      | .ok ws => .ok (w :: ws)

end

mutual

theorem fill_value_ok_of_funcFree : ∀ v : Val, funcFree v = true → ∃ w, fill_value v = .ok w
  | .num _ => fun _ => ⟨.num 0, rfl⟩
  | .ch _ => fun _ => ⟨.ch ' ', rfl⟩
  | .func _ => fun h => by simp [funcFree] at h
  | .arr s d => fun h => by
    obtain ⟨ws, hws⟩ := fillList_ok_of_funcFree d (by simpa [funcFree] using h)
    exact ⟨.arr s ws, by simp [fill_value, hws, Except.map]⟩

theorem fillList_ok_of_funcFree : ∀ d : List Val, funcFreeList d = true →
    ∃ ws, fillList d = .ok ws
  | [] => fun _ => ⟨[], rfl⟩
  | v :: vs => fun h => by
    simp only [funcFreeList, Bool.and_eq_true] at h
    obtain ⟨w, hw⟩ := fill_value_ok_of_funcFree v h.1
    obtain ⟨ws, hws⟩ := fillList_ok_of_funcFree vs h.2
    exact ⟨w :: ws, by simp [fillList, hw, hws]⟩

end

theorem fillList_length : ∀ (d ws : List Val), fillList d = .ok ws → ws.length = d.length := by
  intro d
  induction d with
  | nil =>
    intro ws h
    simp only [fillList] at h
    cases h
    rfl
  | cons v vs ih =>
    intro ws h
    simp only [fillList] at h
    cases hv : fill_value v with
    | error e => rw [hv] at h; simp at h
    | ok w =>
      rw [hv] at h
      cases hvs : fillList vs with
      | error e => rw [hvs] at h; simp at h
      | ok ws' =>
        rw [hvs] at h
        simp only [Except.ok.injEq] at h
        subst h
        simp [ih ws' hvs]

/-- Fill of an array keeps its shape.  Used to track shapes through
padding in `take_array`. -/
theorem fill_value_arr_shape (s : List Nat) (d : List Val) (w : Val)
    (h : fill_value (.arr s d) = .ok w) :
    ∃ ws, w = .arr s ws ∧ ws.length = d.length := by
  simp only [fill_value] at h
  cases hd : fillList d with
  | error e => rw [hd] at h; simp [Except.map] at h
  | ok ws =>
    rw [hd] at h
    simp only [Except.map, Except.ok.injEq] at h
    exact ⟨ws, h.symm, fillList_length d ws hd⟩

/-- `getD` into the flattening of uniform-length blocks. -/
theorem flatten_uniform_getD (k : Nat) (hk : k ≠ 0) :
    ∀ (L : List (List α)), (∀ c ∈ L, c.length = k) →
      ∀ (q i : Nat), q < L.length → i < k → ∀ (d : α),
        L.flatten.getD (q * k + i) d = (L.getD q []).getD i d := by
  intro L
  induction L with
  | nil => intro _ q i hq; simp at hq
  | cons c cs ih =>
    intro hlen q i hq hi d
    cases q with
    | zero =>
      simp only [Nat.zero_mul, Nat.zero_add, List.flatten_cons, List.getD_cons_zero]
      have hc : c.length = k := hlen c (by simp)
      rw [List.getD_append c cs.flatten d i (by omega)]
    | succ q =>
      simp only [List.flatten_cons]
      have hc : c.length = k := hlen c (by simp)
      have harith : (q + 1) * k + i = c.length + (q * k + i) := by
        rw [hc]; ring
      rw [harith, List.getD_append_right c cs.flatten d _ (by omega)]
      have h2 : c.length + (q * k + i) - c.length = q * k + i := by omega
      rw [h2]
      simp only [List.getD_cons_succ]
      exact ih (fun x hx => hlen x (by simp [hx])) q i (by simpa using hq) hi d

/-! ### Cells of an array

`Array::into_values` / `Array::into_cells` are part of the missing
`array.rs`.  Modelled from the spec §3 ("Major cell: cell along axis 0;
equivalently, an array of shape `shape[1:]`") and fixed by their uses in
`algorithm.rs` (`take_array` truncates the list to the axis-0 extent,
`grade` indexes it by `0..shape[0]`): they list the major cells, as plain
values respectively as arrays.  A rank-0 array yields its single element. -/
def Arr.intoValues : Arr → List Val
  | ⟨[], d⟩ => d
  | ⟨[_], d⟩ => d
  | ⟨s :: t :: ss, d⟩ =>
    (List.range s).map (fun c =>
      .arr (t :: ss) ((d.drop (c * (t :: ss).prod)).take (t :: ss).prod))

/-- `Array::into_cells`, modelled from the spec §3 like `Arr.intoValues`
but yielding the major cells as arrays (rank-1 arrays have rank-0 cells). -/
def Arr.intoCells : Arr → List Arr
  | ⟨[], d⟩ => [⟨[], d⟩]
  | ⟨s :: ss, d⟩ =>
    (List.range s).map (fun c => ⟨ss, (d.drop (c * ss.prod)).take ss.prod⟩)

/-- Flat storage contributed by one major cell. -/
def cellData : Val → List Val
  | .arr _ d => d
  | v => [v]

/-- `Array::from((shape, cells)).normalized(norm)` with `norm = 1` iff the
shape has rank > 1, as used by `take_array`.  Modelled from the spec §3
normalize policy: at depth ≥ 1, cells that are arrays of identical shape
`t` extend the outer extent by `t` and their storage is folded; otherwise
(scalar cells, or no cells at all) the given shape is kept.  `cells` is
the list of major cells and `shape.head` the outer extent. -/
def arrFromCells (shape : List Nat) (cells : List Val) : Arr :=
  match shape, cells.head? with
  | s0 :: _ :: _, some (.arr t _) => ⟨s0 :: t, (cells.map cellData).flatten⟩
  | _, _ => ⟨shape, cells⟩

/-- `Array::from(Vec<Array>)` as used by `array_windows`: stacks equal-shape
arrays as the major cells of a new array.  Modelled from the spec §3
normalize policy (outer extent = number of cells, inner shape = common
cell shape). -/
def arrFromCellArrays (cells : List Arr) : Arr :=
  ⟨cells.length :: (cells.headD ⟨[], []⟩).shape, (cells.map Arr.data).flatten⟩

/-! ### The value ordering

The `Ord` instance on `Value` lives in the missing `value.rs`; modelled
from the spec §3: "numbers by IEEE total order excluding NaN ...;
characters by code point; arrays lexicographically by shape then by cells;
numbers < characters < arrays; functions are uncomparable and must not
appear in ordered contexts".  Functions are modelled as ordered by their
opaque handle and placed between characters and arrays so that the order
is total; no claim depends on their position. -/
def cmpNatList : List Nat → List Nat → Ordering
  | [], [] => .eq
  | [], _ :: _ => .lt
  | _ :: _, [] => .gt
  | a :: as, b :: bs => (compare a b).then (cmpNatList as bs)

mutual

/-- The total order on values (spec §3). -/
def valCmp : Val → Val → Ordering
  | .num a, .num b => compare a b
  | .num _, .ch _ => .lt
  | .num _, .func _ => .lt
  | .num _, .arr _ _ => .lt
  | .ch _, .num _ => .gt
  | .ch a, .ch b => compare a b
  | .ch _, .func _ => .lt
  | .ch _, .arr _ _ => .lt
  | .func _, .num _ => .gt
  | .func _, .ch _ => .gt
  | .func a, .func b => compare a b
  | .func _, .arr _ _ => .lt
  | .arr _ _, .num _ => .gt
  | .arr _ _, .ch _ => .gt
  | .arr _ _, .func _ => .gt
  | .arr s d, .arr t e => (cmpNatList s t).then (valCmpList d e)

/-- Lexicographic extension of `valCmp` to cell lists. -/
def valCmpList : List Val → List Val → Ordering
  | [], [] => .eq
  | [], _ :: _ => .lt
  | _ :: _, [] => .gt
  | a :: as, b :: bs => (valCmp a b).then (valCmpList as bs)

end

theorem Ordering_then_eq_eq (o p : Ordering) : o.then p = .eq ↔ o = .eq ∧ p = .eq := by
  cases o <;> simp [Ordering.then]

theorem cmpNatList_eq_iff : ∀ s t : List Nat, cmpNatList s t = .eq ↔ s = t
  | [], [] => by simp [cmpNatList]
  | [], _ :: _ => by simp [cmpNatList]
  | _ :: _, [] => by simp [cmpNatList]
  | a :: as, b :: bs => by
    simp [cmpNatList, Ordering_then_eq_eq, compare_eq_iff_eq, cmpNatList_eq_iff as bs,
      and_comm]

mutual

theorem valCmp_eq_iff : ∀ a b : Val, valCmp a b = .eq ↔ a = b
  | .num _, .num _ => by simp [valCmp, compare_eq_iff_eq]
  | .num _, .ch _ => by simp [valCmp]
  | .num _, .func _ => by simp [valCmp]
  | .num _, .arr _ _ => by simp [valCmp]
  | .ch _, .num _ => by simp [valCmp]
  | .ch _, .ch _ => by simp [valCmp, compare_eq_iff_eq]
  | .ch _, .func _ => by simp [valCmp]
  | .ch _, .arr _ _ => by simp [valCmp]
  | .func _, .num _ => by simp [valCmp]
  | .func _, .ch _ => by simp [valCmp]
  | .func _, .func _ => by simp [valCmp, compare_eq_iff_eq]
  | .func _, .arr _ _ => by simp [valCmp]
  | .arr _ _, .num _ => by simp [valCmp]
  | .arr _ _, .ch _ => by simp [valCmp]
  | .arr _ _, .func _ => by simp [valCmp]
  | .arr s d, .arr t e => by
    simp [valCmp, Ordering_then_eq_eq, cmpNatList_eq_iff s t, valCmpList_eq_iff d e]

theorem valCmpList_eq_iff : ∀ d e : List Val, valCmpList d e = .eq ↔ d = e
  | [], [] => by simp [valCmpList]
  | [], _ :: _ => by simp [valCmpList]
  | _ :: _, [] => by simp [valCmpList]
  | a :: as, b :: bs => by
    simp [valCmpList, Ordering_then_eq_eq, valCmp_eq_iff a b, valCmpList_eq_iff as bs,
      and_comm]

end

/-! ### The shape kernels of `algorithm.rs` -/

/-- `fn transpose<T>` (`algorithm.rs` lines 439–452).  Returns the updated
`(shape, data)` pair; the source mutates in place.  `data[i * run_length + j]`
is always in bounds (`i * run + j < s0 * run ≤ data.len()`), so the `getD`
default is never consulted. -/
def transpose [Inhabited α] (shape : List Nat) (data : List α) : List Nat × List α :=
  if shape.length < 2 ∨ shape.headD 0 = 0 then (shape, data)
  else
    let s0 := shape.headD 0
    let run := data.length / s0
    let temp := ((List.range run).map (fun j =>
      (List.range s0).map (fun i => data.getD (i * run + j) default))).flatten
    (shape.drop 1 ++ shape.take 1, temp)

/-- `fn rotate<T>` (`algorithm.rs` lines 454–474).  `none` models the Rust
panics: `index[0]`/`shape[0]` on an empty slice at the top call, and
`chunks_mut(0)` when a deeper axis has extent 0.  The source's
three-reverse rotation is embedded literally. -/
def rotate (index : List Int) (shape : List Nat) (data : List α) : Option (List α) :=
  match index, shape with
  | i :: is, s :: ss =>
    if s = 0 then some data
    else
      let cs := data.length / s
      let mid := (((s : Int) + i).emod (s : Int)).toNat
      let d := ((data.take (mid * cs)).reverse ++ (data.drop (mid * cs)).reverse).reverse
      if is.isEmpty || ss.isEmpty then some d
      else if cs = 0 then none
      else (mapOpt (rotate is ss) (chunkList cs d)).map List.flatten
  | _, _ => none

/-- `Value::rotate` (`algorithm.rs` lines 296–311): empty or all-zero index
is a no-op, as is a non-array or an array of shape `[0]`; otherwise the
kernel runs on the array's shape and flat storage. -/
def valueRotate (index : List Int) (v : Val) : Option Val :=
  if index.isEmpty || index.all (· = 0) then some v
  else
    match v with
    | .arr shape data =>
      if shape = [0] then some (.arr shape data)
      else (rotate index shape data).map (.arr shape)
    | w => some w

/-- The grow loop of `pub fn force_length` (`algorithm.rs` lines 607–613),
fuelled by the number of pushes left; `i` is the read cursor.  `none`
models the `data[i]` panic, which fires exactly when the buffer starts
empty. -/
def forceGrow : Nat → Nat → List α → Option (List α)
  | 0, _, d => some d
  | fuel + 1, i, d =>
    match d.get? i with
    | none => none
    | some x => forceGrow fuel (i + 1) (d ++ [x])

/-- `pub fn force_length<T>` (`algorithm.rs` lines 605–617). -/
def force_length (d : List α) (len : Nat) : Option (List α) :=
  match compare d.length len with
  | .lt => forceGrow (len - d.length) 0 d
  | .gt => some (d.take len)
  | .eq => some d

/-- `Value::reshape` (`algorithm.rs` lines 152–157) after shape decoding:
coerce to an array, force the flat storage to the target element count,
set the shape (`Array::reshape` of the missing `array.rs`, modelled from
the spec §4.2). -/
def reshape (target : List Nat) (v : Val) : Option Arr :=
  (force_length (coerceArr v).data target.prod).map (fun d => ⟨target, d⟩)

/-- The chunk comparison loop inside `merge_sort_chunks` (`algorithm.rs`
lines 645–651): elementwise comparison that stops at the first pair that
is not `Equal`. -/
def lexCmp (cmp : α → α → Ordering) : List α → List α → Ordering
  | a :: as, b :: bs =>
    let o := cmp a b
    if o = .eq then lexCmp cmp as bs else o
  | _, _ => .eq

/-- The merge loop of `merge_sort_chunks` (`algorithm.rs` lines 642–672) at
chunk granularity, fuelled by the total number of chunks.  A chunk from
the left run is emitted only when it compares strictly `Less`; ties go to
the right run. -/
def mergeChunks (cmp : α → α → Ordering) : Nat → List (List α) → List (List α) → List (List α)
  | 0, ls, rs => ls ++ rs
  | _ + 1, [], rs => rs
  | _ + 1, l :: ls, [] => l :: ls
  | fuel + 1, l :: ls, r :: rs =>
    if lexCmp cmp l r = .lt then l :: mergeChunks cmp fuel ls (r :: rs)
    else r :: mergeChunks cmp fuel (l :: ls) rs

/-- `fn merge_sort_chunks` (`algorithm.rs` lines 627–674) at chunk
granularity: split at `cells / 2`, sort both halves, merge.  Fuelled by
the chunk count, which bounds the recursion depth; fuel `0` is never hit
when the fuel is at least the list length. -/
def merge_sort_chunks (cmp : α → α → Ordering) : Nat → List (List α) → List (List α)
  | 0, l => l
  | fuel + 1, l =>
    if l.length ≤ 1 then l
    else
      let mid := l.length / 2
      mergeChunks cmp (l.length)
        (merge_sort_chunks cmp fuel (l.take mid))
        (merge_sort_chunks cmp fuel (l.drop mid))

/-- `pub fn sort_array<T>` (`algorithm.rs` lines 619–625).  `none` models
the Rust panics: division by a zero `chunk_size`, the `assert_ne!(cells, 0)`,
and the final `clone_from_slice` length mismatch when the data length is
not a chunk multiple (with `cells = 1` the source returns before copying).
On chunk-aligned data the flat recursion of the source splits exactly at
chunk boundaries, so working at chunk granularity is faithful. -/
def sort_array (shape : List Nat) (data : List α) (cmp : α → α → Ordering) :
    Option (List α) :=
  match shape with
  | [] => some data
  | _ :: tail =>
    let chunkSize := tail.prod
    if chunkSize = 0 then none
    else
      let cells := data.length / chunkSize
      if cells = 0 then none
      else if cells = 1 then some data
      else if chunkSize ∣ data.length then
        some ((merge_sort_chunks cmp (chunkList chunkSize data).length
          (chunkList chunkSize data)).flatten)
      else none

/-- `fn pick_impl` (`algorithm.rs` lines 540–563): walk the index,
narrowing the flat slice; return the residual array, or the single
remaining element when the whole shape was consumed.  The `headD` default
is never consulted under `pick`'s bound checks. -/
def pick_impl : List Nat → List Int → List Val → Val
  | shape, [], data =>
    match shape with
    | [] => data.headD (.num 0)
    | _ :: _ => .arr shape data
  | [], _ :: _, data => data.headD (.num 0)
  | s :: ss, i :: is, data =>
    let cs := data.length / s
    let start := if 0 ≤ i then i.toNat * cs else ((data.length : Int) + i * (cs : Int)).toNat
    pick_impl ss is ((data.drop start).take cs)

/-- `fn pick` (`algorithm.rs` lines 513–538): rank check, then the bound
check `i >= s || s + i < 0` on every indexed axis, then `pick_impl`.
Error messages are abbreviated. -/
def pick (index : List Int) (a : Arr) : Except String Val :=
  if index.length > a.shape.length then
    .error "Cannot pick with index of greater rank"
  else if (a.shape.zip index).any
      (fun p => decide ((p.1 : Int) ≤ p.2) || decide ((p.1 : Int) + p.2 < 0)) then
    .error "Index out of range"
  else
    .ok (pick_impl a.shape index a.data)

/-- The truncate/pad step of `fn take_array` (`algorithm.rs` lines
479–498): keep the first (or, for negative counts, last) `|t|` major
cells, padding with the fill value of the first remaining cell when the
axis had fewer.  `.error` models both the fill error and the `cells[0]`
panic on an empty axis. -/
def take_pad (t : Int) (cells : List Val) : Except String (List Val) :=
  let tAbs := t.natAbs
  if 0 ≤ t then
    let kept := cells.take tAbs
    if kept.length < tAbs then
      match kept.head? with
      | none => .error "panic: cells[0] on empty axis"
      | some c => (fill_value c).map (fun f => kept ++ List.replicate (tAbs - kept.length) f)
    else .ok kept
  else
    let kept := cells.drop (cells.length - tAbs)
    if kept.length < tAbs then
      match kept.head? with
      | none => .error "panic: cells[0] on empty axis"
      | some c => (fill_value c).map (fun f => List.replicate (tAbs - kept.length) f ++ kept)
    else .ok kept

/-- `fn take_array` (`algorithm.rs` lines 476–511).  `.error` models both
the returned fill errors and the Rust panics: `index[0]` on an empty index
list, `cells[0]` when padding is needed but the axis has no cells, and the
`shape[0] = take_abs` write on a rank-0 array. -/
def take_array (index : List Int) (a : Arr) : Except String Arr :=
  match index with
  | [] => .error "panic: index out of bounds on empty index"
  | t :: rest =>
    match a.shape with
    | [] => .error "panic: shape[0] write on rank 0"
    | _ :: tail =>
      match take_pad t a.intoValues with
      | .error e => .error e
      | .ok kept =>
        if rest.isEmpty then .ok (arrFromCells (t.natAbs :: tail) kept)
        else
          match mapExc (fun c => (take_array rest (coerceArr c)).map Arr.toVal) kept with
          | .error e => .error e
          | .ok cells2 => .ok (arrFromCells (t.natAbs :: tail) cells2)

/-- The index transformation of `Value::drop` (`algorithm.rs` lines
266–272): `min(0, i − s)` for non-negative `i`, `max(0, s + i)` for
negative `i`, on each axis addressed by the index. -/
def dropTransform (index : List Int) (shape : List Nat) : List Int :=
  (index.zip shape).map (fun p =>
    if 0 ≤ p.1 then min 0 (p.1 - (p.2 : Int)) else max 0 ((p.2 : Int) + p.1))

/-- `Value::drop` (`algorithm.rs` lines 252–276) after index decoding and
the rank checks: transform the index axis by axis, then delegate to
`take_array`. -/
def valueDrop (index : List Int) (a : Arr) : Except String Arr :=
  take_array (dropTransform index a.shape) a

/-- `fn array_windows` (`algorithm.rs` lines 409–437).  `.error` models the
window-size error and the `shape[0]` panic on rank 0.  Each axis-0 window
of major cells is recursively windowed by the remaining sizes and stacked
(`Array::from(Vec<Array>)` twice). -/
def array_windows : List Nat → Arr → Except String Arr
  | [], a => .ok a
  | w :: rest, a =>
    match a.shape with
    | [] => .error "panic: shape[0] on rank 0"
    | s :: _ =>
      if w ≤ s then
        match mapExc (fun win => (mapExc (array_windows rest) win).map arrFromCellArrays)
          (listWindows w a.intoCells) with
        | .error e => .error e
        | .ok ws => .ok (arrFromCellArrays ws)
      else .error "Window size too large"

/-- `Value::windows` (`algorithm.rs` lines 370–379) after size decoding:
an empty size list leaves the receiver (the size list itself!) untouched
and in particular does not produce the array; otherwise the kernel runs on
the coerced array. -/
def valueWindows (sizes : List Nat) (v : Val) : Except String Val :=
  if sizes.isEmpty then .ok (.arr [sizes.length] (sizes.map (fun n => .num n)))
  else (array_windows sizes (coerceArr v)).map Arr.toVal

/-- `Value::member` (`algorithm.rs` lines 395–406): walk the major cells of
the coerced receiver, test each against the set of major cells of the
coerced operand (a `BTreeSet` keyed by the `Ord` instance, i.e. `valCmp`),
and produce the rank-1 numeric 0/1 mask. -/
def member (a b : Val) : Arr :=
  let cells := (coerceArr a).intoValues
  let setList := (coerceArr b).intoValues
  ⟨[cells.length],
    cells.map (fun v => if setList.any (fun m => valCmp m v = .eq) then .num 1 else .num 0)⟩

/-! ### Spec-side description of pick (§4.5) -/

/-- Resolution of a possibly negative index against an axis extent
(spec §4.5: "negative indices count from the end"). -/
def resolveIdx (s : Nat) (i : Int) : Nat :=
  if 0 ≤ i then i.toNat else ((s : Int) + i).toNat

/-- Row-major offset of the cell selected axis by axis (spec §4.5). -/
def pickOffset : List Nat → List Int → Nat
  | s :: ss, i :: is => resolveIdx s i * ss.prod + pickOffset ss is
  | _, _ => 0

/-- The result §4.5 describes: the selected scalar when the whole shape is
consumed, otherwise the residual array of shape `shape[|I|:]` at the
selected offset. -/
def pickSpec (index : List Int) (a : Arr) : Val :=
  if index.length = a.shape.length then
    (a.data.drop (pickOffset a.shape index)).headD (.num 0)
  else
    .arr (a.shape.drop index.length)
      ((a.data.drop (pickOffset a.shape index)).take ((a.shape.drop index.length).prod))

/-- In-range offsets leave room for the full residual cell. -/
theorem pickOffset_bound : ∀ (shape : List Nat) (index : List Int),
    index.length ≤ shape.length →
    (∀ p ∈ shape.zip index, -(p.1 : Int) ≤ p.2 ∧ p.2 < (p.1 : Int)) →
    pickOffset shape index + (shape.drop index.length).prod ≤ shape.prod := by
  intro shape
  induction shape with
  | nil =>
    intro index hlen _
    have : index = [] := List.eq_nil_of_length_eq_zero (Nat.le_zero.mp (by simpa using hlen))
    subst this
    simp [pickOffset]
  | cons s ss ih =>
    intro index hlen hrange
    cases index with
    | nil => simp [pickOffset]
    | cons i is =>
      have hpair : -(s : Int) ≤ i ∧ i < (s : Int) := hrange (s, i) (by simp)
      have hres : resolveIdx s i < s := by
        unfold resolveIdx
        split
        · next h =>
          have : i < (s : Int) := hpair.2
          omega
        · next h =>
          have h1 : (0 : Int) ≤ (s : Int) + i := by omega
          have h2 : (s : Int) + i < (s : Int) := by omega
          omega
      have hrec : pickOffset ss is + (ss.drop is.length).prod ≤ ss.prod := by
        apply ih is (by simpa using hlen)
        intro p hp
        exact hrange p (by simp [hp])
      simp only [pickOffset, List.drop_succ_cons, List.prod_cons]
      calc resolveIdx s i * ss.prod + pickOffset ss is + (ss.drop is.length).prod
          ≤ resolveIdx s i * ss.prod + ss.prod := by omega
        _ = (resolveIdx s i + 1) * ss.prod := by ring
        _ ≤ s * ss.prod := Nat.mul_le_mul_right _ (by omega)

/-- `pick_impl` computes exactly the §4.5 selection on well-formed data
with in-range indices. -/
theorem pick_impl_spec : ∀ (index : List Int) (shape : List Nat) (data : List Val),
    data.length = shape.prod →
    index.length ≤ shape.length →
    (∀ p ∈ shape.zip index, -(p.1 : Int) ≤ p.2 ∧ p.2 < (p.1 : Int)) →
    pick_impl shape index data =
      (if index.length = shape.length then
        (data.drop (pickOffset shape index)).headD (.num 0)
      else
        .arr (shape.drop index.length)
          ((data.drop (pickOffset shape index)).take ((shape.drop index.length).prod))) := by
  intro index
  induction index with
  | nil =>
    intro shape data hwf hlen _
    cases shape with
    | nil =>
      simp [pick_impl, pickOffset]
    | cons s ss =>
      simp only [pick_impl, pickOffset, List.length_nil, List.length_cons]
      rw [if_neg (by omega), List.drop_zero, List.drop_zero]
      congr 1
      rw [List.take_of_length_le (le_of_eq hwf)]
  | cons i is ih =>
    intro shape data hwf hlen hrange
    cases shape with
    | nil => simp at hlen
    | cons s ss =>
      have hpair : -(s : Int) ≤ i ∧ i < (s : Int) := hrange (s, i) (by simp)
      have hs : s ≠ 0 := by
        intro h0
        subst h0
        simp only [Nat.cast_zero] at hpair
        omega
      have hwf' : data.length = s * ss.prod := by rw [hwf, List.prod_cons]
      have hcs : data.length / s = ss.prod := by
        rw [hwf', Nat.mul_div_cancel_left _ (Nat.pos_of_ne_zero hs)]
      have hres : resolveIdx s i < s := by
        unfold resolveIdx
        split
        · next h => omega
        · next h =>
          have h1 : (0 : Int) ≤ (s : Int) + i := by omega
          have h2 : (s : Int) + i < (s : Int) := by omega
          omega
      have hstart : (if 0 ≤ i then i.toNat * (data.length / s)
          else ((data.length : Int) + i * ((data.length / s : Nat) : Int)).toNat)
          = resolveIdx s i * ss.prod := by
        unfold resolveIdx
        rcases le_or_lt 0 i with h | h
        · rw [if_pos h, if_pos h, hcs]
        · rw [if_neg (not_le.mpr h), if_neg (not_le.mpr h), hcs]
          have h1 : (data.length : Int) + i * ((ss.prod : Nat) : Int)
              = ((s : Int) + i) * (ss.prod : Int) := by
            rw [hwf']
            push_cast
            ring
          rw [h1]
          have hnn : (0 : Int) ≤ (s : Int) + i := by omega
          calc (((s : Int) + i) * (ss.prod : Int)).toNat
              = ((((s : Int) + i).toNat : Int) * ((ss.prod : Int))).toNat := by
                rw [Int.toNat_of_nonneg hnn]
            _ = (((((s : Int) + i).toNat * ss.prod : Nat)) : Int).toNat := by
                rw [Nat.cast_mul]
            _ = ((s : Int) + i).toNat * ss.prod := Int.toNat_natCast _
      have hmul : (resolveIdx s i + 1) * ss.prod = resolveIdx s i * ss.prod + ss.prod := by
        ring
      have hmul2 : (resolveIdx s i + 1) * ss.prod ≤ s * ss.prod :=
        Nat.mul_le_mul_right _ (by omega)
      have hslice : ((data.drop (resolveIdx s i * ss.prod)).take ss.prod).length = ss.prod := by
        simp only [List.length_take, List.length_drop]
        omega
      have hrange' : ∀ p ∈ ss.zip is, -(p.1 : Int) ≤ p.2 ∧ p.2 < (p.1 : Int) := by
        intro p hp
        exact hrange p (by simp [hp])
      have hlen' : is.length ≤ ss.length := by simpa using hlen
      have hbound := pickOffset_bound ss is hlen' hrange'
      have hIH := ih ss ((data.drop (resolveIdx s i * ss.prod)).take ss.prod) hslice hlen' hrange'
      simp only [pick_impl]
      rw [hstart, hcs, hIH]
      have hdt : ((data.drop (resolveIdx s i * ss.prod)).take ss.prod).drop (pickOffset ss is)
          = (data.drop (resolveIdx s i * ss.prod + pickOffset ss is)).take
              (ss.prod - pickOffset ss is) := by
        rw [List.drop_take, List.drop_drop]
      simp only [pickOffset, List.length_cons, List.drop_succ_cons, List.prod_cons]
      by_cases hfull : is.length = ss.length
      · rw [if_pos hfull, if_pos (by omega)]
        rw [hdt]
        have hresid : (ss.drop is.length).prod = 1 := by
          rw [hfull, List.drop_length, List.prod_nil]
        rw [hresid] at hbound
        cases hdata : (data.drop (resolveIdx s i * ss.prod + pickOffset ss is)) with
        | nil => simp
        | cons x xs =>
          cases hk : ss.prod - pickOffset ss is with
          | zero => omega
          | succ k => simp [List.take_cons]
      · rw [if_neg hfull, if_neg (by omega)]
        rw [hdt, List.take_take]
        congr 2
        apply Nat.min_eq_left
        omega

/-- **C5.** For every array `A` of rank ≥ 1 and integer index list `I` with
`|I| ≤ rank(A)`, `pick(I, A)` fails if and only if some `iⱼ` lies outside
`[−sⱼ, sⱼ)`; when it succeeds it returns the cell selected axis by axis
(negative indices counting from the end), as a scalar when `|I| = rank(A)`
and otherwise as the residual array of shape `shape(A)[|I|:]`. -/
theorem c5_pick_range_and_result (index : List Int) (a : Arr)
    (hwf : a.wf) (hrank : 1 ≤ a.shape.length) (hlen : index.length ≤ a.shape.length) :
    ((∃ e, pick index a = .error e) ↔
      ∃ p ∈ a.shape.zip index, p.2 < -(p.1 : Int) ∨ (p.1 : Int) ≤ p.2) ∧
    ((∀ p ∈ a.shape.zip index, -(p.1 : Int) ≤ p.2 ∧ p.2 < (p.1 : Int)) →
      pick index a = .ok (pickSpec index a)) := by
  unfold pick
  rw [if_neg (by omega)]
  constructor
  · constructor
    · intro he
      by_cases hany : (a.shape.zip index).any
          (fun p => decide ((p.1 : Int) ≤ p.2) || decide ((p.1 : Int) + p.2 < 0)) = true
      · rw [List.any_eq_true] at hany
        obtain ⟨p, hp, hcond⟩ := hany
        refine ⟨p, hp, ?_⟩
        simp only [Bool.or_eq_true, decide_eq_true_eq] at hcond
        omega
      · rw [if_neg (by simpa using hany)] at he
        obtain ⟨e, he⟩ := he
        simp at he
    · intro ⟨p, hp, hcond⟩
      rw [if_pos (List.any_eq_true.mpr ⟨p, hp,
        by simp only [Bool.or_eq_true, decide_eq_true_eq]; omega⟩)]
      exact ⟨"Index out of range", rfl⟩
  · intro hin
    have hany : ¬ (a.shape.zip index).any
        (fun p => decide ((p.1 : Int) ≤ p.2) || decide ((p.1 : Int) + p.2 < 0)) = true := by
      rw [List.any_eq_true]
      rintro ⟨p, hp, hcond⟩
      have := hin p hp
      simp only [Bool.or_eq_true, decide_eq_true_eq] at hcond
      omega
    rw [if_neg hany]
    congr 1
    rw [pick_impl_spec index a.shape a.data hwf hlen hin]
    rfl

/-- Witness for C5 at `pick([1, −3], 2×3 array)`: in range on both axes,
selecting the scalar cell `(1, 0)`. -/
theorem c5_pick_range_and_result_witness :
    pick [1, -3] ⟨[2, 3], [.num 1, .num 2, .num 3, .num 4, .num 5, .num 6]⟩
      = .ok (.num 4) := by
  have h := (c5_pick_range_and_result [1, -3]
    ⟨[2, 3], [.num 1, .num 2, .num 3, .num 4, .num 5, .num 6]⟩
    (by decide) (by decide) (by decide)).2 (by decide)
  rw [h]
  rfl

/-- **C10.** For every array `A` with extent 0 along an axis `j` addressed by
the index list, `pick(I, A)` returns the out-of-range error for every
integer `iⱼ`: the bound check `i >= s || s + i < 0` rejects every integer
when `s = 0`, so the unguarded division by the axis extent inside
`pick_impl` is never reached with a zero divisor. -/
theorem c10_pick_zero_extent_axis (index : List Int) (a : Arr) (j : Nat)
    (hlen : index.length ≤ a.shape.length) (hj : j < index.length)
    (hs : a.shape.getD j 1 = 0) :
    pick index a = .error "Index out of range" := by
  unfold pick
  rw [if_neg (by omega)]
  have hjs : j < a.shape.length := lt_of_lt_of_le hj hlen
  have hzip : j < (a.shape.zip index).length := by
    simp only [List.length_zip]
    omega
  have hsj : a.shape.get ⟨j, hjs⟩ = 0 := by
    rw [List.getD_eq_getElem a.shape 1 hjs] at hs
    exact hs
  have hpair : (a.shape.zip index).get ⟨j, hzip⟩ = (a.shape.get ⟨j, hjs⟩, index.get ⟨j, hj⟩) := by
    simp only [List.get_eq_getElem]
    exact List.getElem_zip
  rw [if_pos (List.any_eq_true.mpr ⟨(a.shape.zip index).get ⟨j, hzip⟩,
    List.getElem_mem hzip, by
      rw [hpair, hsj]
      simp only [Bool.or_eq_true, decide_eq_true_eq, Nat.cast_zero]
      omega⟩)]

/-- Witness for C10: picking index 0 from an array of shape `[0, 3]` is
rejected by the bound check. -/
theorem c10_pick_zero_extent_axis_witness :
    pick [0] ⟨[0, 3], []⟩ = .error "Index out of range" :=
  c10_pick_zero_extent_axis [0] ⟨[0, 3], []⟩ 0 (by decide) (by decide) (by decide)

/-! ### C2: the sort kernel -/

theorem mergeChunks_perm (cmp : α → α → Ordering) :
    ∀ (fuel : Nat) (ls rs : List (List α)),
      (mergeChunks cmp fuel ls rs).Perm (ls ++ rs) := by
  intro fuel
  induction fuel with
  | zero => intro ls rs; exact List.Perm.refl _
  | succ fuel ih =>
    intro ls rs
    cases ls with
    | nil => simp [mergeChunks]
    | cons l ls =>
      cases rs with
      | nil => simp [mergeChunks]
      | cons r rs =>
        simp only [mergeChunks]
        split
        · exact (ih ls (r :: rs)).cons l
        · exact ((ih (l :: ls) rs).cons r).trans List.perm_middle.symm

theorem merge_sort_chunks_perm (cmp : α → α → Ordering) :
    ∀ (fuel : Nat) (l : List (List α)), (merge_sort_chunks cmp fuel l).Perm l := by
  intro fuel
  induction fuel with
  | zero => intro l; exact List.Perm.refl _
  | succ fuel ih =>
    intro l
    simp only [merge_sort_chunks]
    split
    · exact List.Perm.refl _
    · have hp : (merge_sort_chunks cmp fuel (l.take (l.length / 2))
          ++ merge_sort_chunks cmp fuel (l.drop (l.length / 2))).Perm l := by
        have := (ih (l.take (l.length / 2))).append (ih (l.drop (l.length / 2)))
        rwa [List.take_append_drop] at this
      exact (mergeChunks_perm cmp _ _ _).trans hp

/-- **C2 (amended).** `sort_array` is not stable; what does hold is that it
permutes the chunks: whenever it completes, the output data is a
permutation of the input data (and on chunk-aligned data a permutation of
whole chunks). -/
theorem c2_sort_array_perm (shape : List Nat) (data : List α)
    (cmp : α → α → Ordering) (out : List α)
    (h : sort_array shape data cmp = some out) : out.Perm data := by
  cases shape with
  | nil =>
    simp only [sort_array, Option.some.injEq] at h
    subst h
    exact List.Perm.refl _
  | cons s tail =>
    simp only [sort_array] at h
    by_cases h0 : tail.prod = 0
    · rw [if_pos h0] at h
      simp at h
    · rw [if_neg h0] at h
      by_cases h1 : data.length / tail.prod = 0
      · rw [if_pos h1] at h
        simp at h
      · rw [if_neg h1] at h
        by_cases h2 : data.length / tail.prod = 1
        · rw [if_pos h2] at h
          simp only [Option.some.injEq] at h
          subst h
          exact List.Perm.refl _
        · rw [if_neg h2] at h
          by_cases h3 : tail.prod ∣ data.length
          · rw [if_pos h3] at h
            simp only [Option.some.injEq] at h
            subst h
            have hperm := (merge_sort_chunks_perm cmp (chunkList tail.prod data).length
              (chunkList tail.prod data)).flatten
            rwa [chunkList_flatten tail.prod h0 data h3] at hperm
          · rw [if_neg h3] at h
            simp at h

/-- Witness for the amended C2: sorting `[30, 10, 20]` by `compare` yields
`[10, 20, 30]`, a permutation of the input. -/
theorem c2_sort_array_perm_witness :
    sort_array [3] ([30, 10, 20] : List Int) compare = some [10, 20, 30] ∧
    ([10, 20, 30] : List Int).Perm [30, 10, 20] :=
  ⟨by rfl, c2_sort_array_perm [3] [30, 10, 20] compare [10, 20, 30] (by rfl)⟩

/-- **C2 (counterexample).** The claim "sort_array is stable" fails: with
chunk size 1 and a comparison under which the two chunks `[0]` and `[1]`
compare equal, the merge emits the right chunk first, so equal chunks come
out in reversed relative order. -/
theorem c2_counterexample_unstable :
    lexCmp (fun (_ _ : Int) => Ordering.eq) [0] [1] = .eq ∧
    sort_array [2] ([0, 1] : List Int) (fun _ _ => Ordering.eq) = some [1, 0] ∧
    ([1, 0] : List Int) ≠ [0, 1] := by
  refine ⟨rfl, rfl, ?_⟩
  decide

/-! ### C9: reshape and the cyclic refill -/

/-- The cyclic reading of a nonempty buffer, truncated or extended to
`len` elements (spec §4.2: truncation if longer, cyclic repetition
wrapping from index 0 if shorter). -/
def cyclicTake (len : Nat) (d : List α) (dflt : α) : List α :=
  (List.range len).map (fun k => d.getD (k % d.length) dflt)

theorem cyclicTake_self (d : List α) (dflt : α) : cyclicTake d.length d dflt = d := by
  apply List.ext_getElem
  · simp [cyclicTake]
  · intro n h1 h2
    simp only [cyclicTake, List.getElem_map, List.getElem_range]
    rw [Nat.mod_eq_of_lt h2, List.getD_eq_getElem d dflt h2]

theorem forceGrow_cyclic (d : List α) (dflt : α) (hd : d ≠ []) :
    ∀ (fuel i : Nat),
      forceGrow fuel i (cyclicTake (d.length + i) d dflt)
        = some (cyclicTake (d.length + i + fuel) d dflt) := by
  have hn : 0 < d.length := List.length_pos.mpr hd
  intro fuel
  induction fuel with
  | zero => intro i; rfl
  | succ fuel ih =>
    intro i
    have hlen : (cyclicTake (d.length + i) d dflt).length = d.length + i := by
      simp [cyclicTake]
    have hi : i < (cyclicTake (d.length + i) d dflt).length := by omega
    have hget : (cyclicTake (d.length + i) d dflt).get? i
        = some (d.getD (i % d.length) dflt) := by
      rw [List.get?_eq_getElem?, List.getElem?_eq_getElem hi]
      simp [cyclicTake]
    have happ : cyclicTake (d.length + i) d dflt ++ [d.getD (i % d.length) dflt]
        = cyclicTake (d.length + (i + 1)) d dflt := by
      unfold cyclicTake
      have : d.length + (i + 1) = (d.length + i) + 1 := by omega
      rw [this, List.range_succ, List.map_append]
      simp only [List.map_cons, List.map_nil]
      congr 2
      rw [Nat.add_mod_left]
    simp only [forceGrow, hget]
    rw [happ]
    have := ih (i + 1)
    have harith : d.length + (i + 1) + fuel = d.length + i + (fuel + 1) := by omega
    rw [harith] at this
    exact this

theorem force_length_cyclic (d : List α) (dflt : α) (hd : d ≠ []) (len : Nat) :
    force_length d len = some (cyclicTake len d dflt) := by
  have hn : 0 < d.length := List.length_pos.mpr hd
  unfold force_length
  rcases lt_trichotomy d.length len with h | h | h
  · rw [Nat.compare_eq_lt.mpr h]
    show forceGrow (len - d.length) 0 d = some (cyclicTake len d dflt)
    have h0 := forceGrow_cyclic d dflt hd (len - d.length) 0
    rw [Nat.add_zero, cyclicTake_self] at h0
    have harith : d.length + (len - d.length) = len := by omega
    rw [harith] at h0
    exact h0
  · rw [Nat.compare_eq_eq.mpr h]
    show some d = some (cyclicTake len d dflt)
    rw [← h, cyclicTake_self]
  · rw [Nat.compare_eq_gt.mpr h]
    show some (d.take len) = some (cyclicTake len d dflt)
    congr 1
    apply List.ext_getElem
    · simp [cyclicTake]
      omega
    · intro n h1 h2
      simp only [cyclicTake, List.getElem_map, List.getElem_range, List.getElem_take]
      have hn' : n < len := by
        simp only [List.length_take] at h1
        omega
      have hnd : n < d.length := by
        simp only [List.length_take] at h1
        omega
      rw [Nat.mod_eq_of_lt hnd, List.getD_eq_getElem d dflt hnd]

/-- **C9 (amended).** `reshape(target, v)` completes for every decoded
target shape provided the coerced array's flat storage is nonempty: the
result has the target shape and its storage is the cyclic reading
(truncation when longer, wrap-around repetition when shorter) of the
original storage.  On empty storage with a nonzero target element count
the refill loop indexes element 0 and panics, so the claim's "including an
array with empty storage" fails. -/
theorem c9_reshape_total_nonempty (target : List Nat) (v : Val)
    (hne : (coerceArr v).data ≠ []) :
    reshape target v
      = some ⟨target, cyclicTake target.prod (coerceArr v).data (.num 0)⟩ := by
  unfold reshape
  rw [force_length_cyclic (coerceArr v).data (.num 0) hne target.prod]
  rfl

/-- Witness for the amended C9: reshaping a 2-element list to 5 elements
wraps cyclically. -/
theorem c9_reshape_total_nonempty_witness :
    reshape [5] (.arr [2] [.num 1, .num 2])
      = some ⟨[5], [.num 1, .num 2, .num 1, .num 2, .num 1]⟩ := by
  have h := c9_reshape_total_nonempty [5] (.arr [2] [.num 1, .num 2]) (by decide)
  rw [h]
  rfl

/-- **C9 (counterexample).** Reshaping an array with empty storage to one
element does not complete (the source's refill loop reads `data[0]` of an
empty buffer), refuting "the operation completes ... (including an array
with empty storage)". -/
theorem c9_counterexample_empty_storage :
    reshape [1] (.arr [0] []) = none ∧ ¬ ∃ r, reshape [1] (.arr [0] []) = some r := by
  refine ⟨rfl, ?_⟩
  rintro ⟨r, hr⟩
  rw [show reshape [1] (.arr [0] []) = none from rfl] at hr
  exact Option.noConfusion hr

/-! ### C7: member -/

/-- **C7 (amended).** `member(A, B)` produces a rank-1 numeric 0/1 mask
with one entry per major cell of the coerced `A` (so the shape equals
`shape(A)` only for rank-1 `A`), whose entry `n` is 1 exactly when the
`n`-th major cell of `A` is among the major cells of the coerced `B`. -/
theorem c7_member_mask (a b : Val) :
    (member a b).shape = [(coerceArr a).intoValues.length] ∧
    (member a b).data.length = (coerceArr a).intoValues.length ∧
    ∀ (n : Nat) (hn : n < (coerceArr a).intoValues.length),
      (member a b).data.getD n (.num 0)
        = if (coerceArr a).intoValues[n] ∈ (coerceArr b).intoValues
          then .num 1 else .num 0 := by
  have key : ∀ x : Val,
      (((coerceArr b).intoValues.any fun m => valCmp m x = Ordering.eq) = true)
      ↔ x ∈ (coerceArr b).intoValues := by
    intro x
    rw [List.any_eq_true]
    constructor
    · rintro ⟨m, hm, he⟩
      rw [decide_eq_true_eq, valCmp_eq_iff] at he
      exact he ▸ hm
    · intro hx
      exact ⟨x, hx, by rw [decide_eq_true_eq, valCmp_eq_iff]⟩
  refine ⟨rfl, by simp [member], ?_⟩
  intro n hn
  simp only [member]
  rw [List.getD_eq_getElem _ _ (by simpa using hn), List.getElem_map]
  by_cases hin : (coerceArr a).intoValues[n] ∈ (coerceArr b).intoValues
  · rw [if_pos ((key _).mpr hin), if_pos hin]
  · rw [if_neg (fun hh => hin ((key _).mp hh)), if_neg hin]

/-- Witness for the amended C7 at `member([1,2,3,4], [2,4])` (spec
scenario 10): the mask is `[0,1,0,1]`, and the entry at position 1 is 1
because `2` is a major cell of `B`. -/
theorem c7_member_mask_witness :
    (member (.arr [4] [.num 1, .num 2, .num 3, .num 4]) (.arr [2] [.num 2, .num 4])).shape
      = [4] ∧
    (member (.arr [4] [.num 1, .num 2, .num 3, .num 4]) (.arr [2] [.num 2, .num 4])).data
      = [.num 0, .num 1, .num 0, .num 1] ∧
    (member (.arr [4] [.num 1, .num 2, .num 3, .num 4])
      (.arr [2] [.num 2, .num 4])).data.getD 1 (.num 0) = .num 1 := by
  refine ⟨?_, by rfl, ?_⟩
  · exact (c7_member_mask (.arr [4] [.num 1, .num 2, .num 3, .num 4])
      (.arr [2] [.num 2, .num 4])).1
  · rw [(c7_member_mask (.arr [4] [.num 1, .num 2, .num 3, .num 4])
      (.arr [2] [.num 2, .num 4])).2.2 1 (by decide)]
    rw [if_pos (by decide)]

/-- **C7 (counterexample).** For the rank-2 array `A = [[1,2],[3,4]]` the
mask has shape `[2]` (one entry per major cell), not the claimed "same
shape as A" `[2,2]`. -/
theorem c7_counterexample_rank2_shape :
    (member (.arr [2, 2] [.num 1, .num 2, .num 3, .num 4]) (.arr [1] [.num 1])).shape
      = [2] ∧ ([2] : List Nat) ≠ [2, 2] := by
  exact ⟨rfl, by decide⟩

/-! ### C6: transpose -/

/-- **C6 (amended).** `transpose` rotates the shape left by one position
and permutes row-major storage so that axis 0 becomes the new last axis:
the new cell at multi-index `(rest, i)` equals the old cell at
`(i, rest)` (for rank 2 this is the claimed `new (j, i) = old (i, j)`; for
higher ranks the old leading index moves to the back of the index tuple,
not merely past the first coordinate); rank < 2 or `s₀ = 0` is a no-op. -/
theorem c6_transpose_rotates [Inhabited α] (shape : List Nat) (data : List α)
    (hwf : data.length = shape.prod) :
    ((shape.length < 2 ∨ shape.headD 0 = 0) → transpose shape data = (shape, data)) ∧
    (2 ≤ shape.length → shape.headD 0 ≠ 0 →
      (transpose shape data).1 = shape.drop 1 ++ shape.take 1 ∧
      ∀ (i : Nat) (rest : List Nat), i < shape.headD 0 →
        List.Forall₂ (fun x s => x < s) rest (shape.drop 1) →
        (transpose shape data).2.getD
            (flatIdx (shape.drop 1 ++ shape.take 1) (rest ++ [i])) default
          = data.getD (flatIdx shape (i :: rest)) default) := by
  constructor
  · intro h
    unfold transpose
    rw [if_pos h]
  · intro hrank hs0
    have hcond : ¬ (shape.length < 2 ∨ shape.headD 0 = 0) := by
      push_neg
      exact ⟨by omega, hs0⟩
    constructor
    · unfold transpose
      rw [if_neg hcond]
    · intro i rest hi hrest
      unfold transpose
      rw [if_neg hcond]
      cases shape with
      | nil => simp at hrank
      | cons s0 ss =>
        simp only [List.headD_cons] at hi hs0
        simp only [List.headD_cons, List.drop_succ_cons, List.drop_zero,
          List.take_succ_cons, List.take_zero] at hrest ⊢
        have hrun : data.length / s0 = ss.prod := by
          rw [hwf, List.prod_cons, Nat.mul_div_cancel_left _ (Nat.pos_of_ne_zero hs0)]
        have hlenrest : rest.length = ss.length := hrest.length_eq
        have hq : flatIdx ss rest < ss.prod := by
          rcases flatIdx_lt ss rest hrest with h | ⟨h1, h2⟩
          · exact h
          · subst h1
            cases rest with
            | nil => simp at hrank
            | cons x xs => simp at hlenrest
        rw [flatIdx_snoc ss rest s0 i hlenrest]
        have hblocks : ∀ c ∈ (List.range (data.length / s0)).map (fun j =>
            (List.range s0).map (fun i => data.getD (i * (data.length / s0) + j) default)),
            c.length = s0 := by
          intro c hc
          obtain ⟨j, _, hj⟩ := List.mem_map.mp hc
          rw [← hj]
          simp
        rw [flatten_uniform_getD s0 hs0 _ hblocks (flatIdx ss rest) i
          (by rw [hrun]; simpa using hq) hi default]
        have hqlen : flatIdx ss rest < ((List.range (data.length / s0)).map (fun j =>
            (List.range s0).map (fun i => data.getD (i * (data.length / s0) + j) default))).length := by
          simp only [List.length_map, List.length_range]
          rw [hrun]
          exact hq
        rw [List.getD_eq_getElem _ _ hqlen, List.getElem_map, List.getElem_range]
        have hilen : i < ((List.range s0).map (fun i =>
            data.getD (i * (data.length / s0) + flatIdx ss rest) default)).length := by
          simpa using hi
        rw [List.getD_eq_getElem _ _ hilen, List.getElem_map, List.getElem_range]
        simp only [flatIdx, hrun]

/-- Witness for the amended C6 at the 2×3 matrix `[[0,1,2],[3,4,5]]`: the
transpose has shape `[3,2]` and the new cell at `(j, i) = (1, 0)` equals
the old cell at `(0, 1)`, namely `1`. -/
theorem c6_transpose_rotates_witness :
    (transpose [2, 3] ([0, 1, 2, 3, 4, 5] : List Int)).1 = [3, 2] ∧
    (transpose [2, 3] ([0, 1, 2, 3, 4, 5] : List Int)).2.getD
        (flatIdx [3, 2] ([1] ++ [0])) default
      = ([0, 1, 2, 3, 4, 5] : List Int).getD (flatIdx [2, 3] (0 :: [1])) default := by
  have h := c6_transpose_rotates [2, 3] ([0, 1, 2, 3, 4, 5] : List Int) (by decide)
  have h2 := h.2 (by decide) (by decide)
  refine ⟨h2.1, ?_⟩
  exact h2.2 0 [1] (by decide)
    (by exact List.Forall₂.cons (by decide) (List.Forall₂.nil))

/-- **C6 (counterexample).** The claim's formula "new cell at `(j, i, rest)`
equals old cell at `(i, j, rest)`" fails at rank 3: for the 2×2×2 array
with storage `0..7`, the new cell at `(0, 0, 1)` is `4` while the old cell
at `(0, 0, 1)` is `1`. -/
theorem c6_counterexample_rank3 :
    (transpose [2, 2, 2] ([0, 1, 2, 3, 4, 5, 6, 7] : List Int)).1 = [2, 2, 2] ∧
    (transpose [2, 2, 2] ([0, 1, 2, 3, 4, 5, 6, 7] : List Int)).2.getD
        (flatIdx [2, 2, 2] [0, 0, 1]) default = 4 ∧
    ([0, 1, 2, 3, 4, 5, 6, 7] : List Int).getD (flatIdx [2, 2, 2] [0, 0, 1]) default = 1 ∧
    (4 : Int) ≠ 1 := by
  refine ⟨by decide, by decide, by decide, by decide⟩

/-! ### C3/C4: take and drop -/

/-- The fill value §4.4 pads with: the fill of the first cell of the axis
(defaulting arbitrarily when there is none or when it has no fill — the
theorems only use it under hypotheses that exclude those cases). -/
def fillOf (cells : List Val) : Val :=
  match fill_value (cells.headD (.num 0)) with
  | .ok f => f
  | .error _ => .num 0

/-- The spec §4.4 description of one take axis: the first `|t|` cells
padded on the right (for `t ≥ 0`), or the last `|t|` cells padded on the
left (for `t < 0`). -/
def padTake (t : Int) (fill : Val) (cells : List Val) : List Val :=
  if 0 ≤ t then cells.take t.natAbs ++ List.replicate (t.natAbs - cells.length) fill
  else List.replicate (t.natAbs - cells.length) fill ++ cells.drop (cells.length - t.natAbs)

/-- The shape `take_array` actually produces: `|tⱼ|` per indexed axis, but
once an axis keeps zero cells there is nothing to recurse into and the
remaining indexed axes keep their original ("stale") extents. -/
def takeShape : List Int → List Nat → List Nat
  | t :: rest, s0 :: tail =>
    if rest.isEmpty then t.natAbs :: tail
    else if t.natAbs = 0 then t.natAbs :: tail
    else t.natAbs :: takeShape rest tail
  | _, s => s

/-- The spec §4.4 description of `take`: axis-by-axis padded selection,
extent `|iⱼ|` per indexed axis, extents beyond the index unchanged. -/
def takeSpec : List Int → Arr → Arr
  | [], a => a
  | t :: rest, a =>
    let kept := padTake t (fillOf a.intoValues) a.intoValues
    let newCells := if rest.isEmpty then kept
      else kept.map (fun c => (takeSpec rest (coerceArr c)).toVal)
    ⟨(t :: rest).map Int.natAbs ++ a.shape.drop (rest.length + 1),
      match a.shape with
      | _ :: _ :: _ => (newCells.map cellData).flatten
      | _ => newCells⟩

theorem funcFreeList_iff (l : List Val) :
    funcFreeList l = true ↔ ∀ x ∈ l, funcFree x = true := by
  induction l with
  | nil => simp [funcFreeList]
  | cons v vs ih =>
    simp [funcFreeList, ih]

theorem funcFreeList_take (l : List Val) (n : Nat) (h : funcFreeList l = true) :
    funcFreeList (l.take n) = true := by
  rw [funcFreeList_iff] at h ⊢
  exact fun x hx => h x (List.mem_of_mem_take hx)

theorem funcFreeList_drop (l : List Val) (n : Nat) (h : funcFreeList l = true) :
    funcFreeList (l.drop n) = true := by
  rw [funcFreeList_iff] at h ⊢
  exact fun x hx => h x (List.mem_of_mem_drop hx)

mutual

theorem fill_value_funcFree : ∀ (v w : Val), fill_value v = .ok w → funcFree w = true
  | .num _, w => fun h => by
    simp only [fill_value, Except.ok.injEq] at h
    subst h
    rfl
  | .ch _, w => fun h => by
    simp only [fill_value, Except.ok.injEq] at h
    subst h
    rfl
  | .func _, w => fun h => by
    simp [fill_value] at h
  | .arr s d, w => fun h => by
    simp only [fill_value] at h
    cases hd : fillList d with
    | error e => rw [hd] at h; simp [Except.map] at h
    | ok ws =>
      rw [hd] at h
      simp only [Except.map, Except.ok.injEq] at h
      subst h
      exact fillList_funcFree d ws hd

theorem fillList_funcFree : ∀ (d ws : List Val), fillList d = .ok ws → funcFreeList ws = true
  | [], ws => fun h => by
    simp only [fillList, Except.ok.injEq] at h
    subst h
    rfl
  | v :: vs, ws => fun h => by
    simp only [fillList] at h
    cases hv : fill_value v with
    | error e => rw [hv] at h; simp at h
    | ok w =>
      rw [hv] at h
      cases hvs : fillList vs with
      | error e => rw [hvs] at h; simp at h
      | ok ws2 =>
        rw [hvs] at h
        simp only [Except.ok.injEq] at h
        subst h
        simp only [funcFreeList, Bool.and_eq_true]
        exact ⟨fill_value_funcFree v w hv, fillList_funcFree vs ws2 hvs⟩

end

theorem flatten_length_uniform (k : Nat) :
    ∀ (L : List (List α)), (∀ c ∈ L, c.length = k) → L.flatten.length = L.length * k := by
  intro L
  induction L with
  | nil => intro _; simp
  | cons c cs ih =>
    intro h
    simp only [List.flatten_cons, List.length_append, List.length_cons,
      h c (by simp), ih (fun x hx => h x (by simp [hx]))]
    ring

theorem mapExc_map_eq (f : α → Except String β) (g : α → β) :
    ∀ (l : List α), (∀ a ∈ l, f a = .ok (g a)) → mapExc f l = .ok (l.map g) := by
  intro l
  induction l with
  | nil => intro _; rfl
  | cons a as ih =>
    intro h
    simp only [mapExc, h a (by simp), ih (fun x hx => h x (by simp [hx])), List.map_cons]

theorem intoValues_length (a : Arr) (hwf : a.wf) (hrank : 1 ≤ a.shape.length) :
    a.intoValues.length = a.shape.headD 0 := by
  obtain ⟨shape, data⟩ := a
  cases shape with
  | nil => simp at hrank
  | cons s ss =>
    cases ss with
    | nil =>
      simp only [Arr.intoValues, List.headD_cons]
      unfold Arr.wf at hwf
      simp only [List.prod_cons, List.prod_nil, mul_one] at hwf
      exact hwf
    | cons t ts =>
      simp [Arr.intoValues]

/-- For rank ≥ 2 every major cell is an array of the tail shape with
well-formed storage sliced out of the parent's storage. -/
theorem intoValues_cells (a : Arr) (hwf : a.wf) (s0 t : Nat) (ts : List Nat)
    (hsh : a.shape = s0 :: t :: ts) :
    ∀ c ∈ a.intoValues, ∃ dc, c = .arr (t :: ts) dc ∧ dc.length = (t :: ts).prod ∧
      (funcFreeList a.data = true → funcFreeList dc = true) := by
  obtain ⟨shape, data⟩ := a
  simp only at hsh
  subst hsh
  intro c hc
  simp only [Arr.intoValues, List.mem_map, List.mem_range] at hc
  obtain ⟨k, hk, hck⟩ := hc
  refine ⟨(data.drop (k * (t :: ts).prod)).take (t :: ts).prod, hck.symm, ?_, ?_⟩
  · unfold Arr.wf at hwf
    simp only at hwf
    simp only [List.length_take, List.length_drop]
    rw [hwf, show (s0 :: t :: ts).prod = s0 * (t :: ts).prod from List.prod_cons]
    have h1 : (k + 1) * (t :: ts).prod ≤ s0 * (t :: ts).prod :=
      Nat.mul_le_mul_right _ (by omega)
    have h2 : (k + 1) * (t :: ts).prod = k * (t :: ts).prod + (t :: ts).prod := by ring
    omega
  · intro hff
    exact funcFreeList_take _ _ (funcFreeList_drop _ _ hff)

theorem intoValues_funcFree (a : Arr) (hff : funcFreeList a.data = true) :
    ∀ c ∈ a.intoValues, funcFree c = true := by
  obtain ⟨shape, data⟩ := a
  intro c hc
  cases shape with
  | nil =>
    rw [funcFreeList_iff] at hff
    exact hff c hc
  | cons s ss =>
    cases ss with
    | nil =>
      rw [funcFreeList_iff] at hff
      exact hff c hc
    | cons t ts =>
      simp only [Arr.intoValues, List.mem_map, List.mem_range] at hc
      obtain ⟨k, _, hck⟩ := hc
      rw [← hck]
      show funcFreeList _ = true
      exact funcFreeList_take _ _ (funcFreeList_drop _ _ hff)

/-- The padding step succeeds with the §4.4 result whenever an overlong
take finds at least one cell whose fill exists. -/
theorem take_pad_ok (t : Int) (cells : List Val)
    (hsafe : t.natAbs > cells.length →
      cells ≠ [] ∧ ∃ f, fill_value (cells.headD (.num 0)) = .ok f) :
    take_pad t cells = .ok (padTake t (fillOf cells) cells) ∧
    (padTake t (fillOf cells) cells).length = t.natAbs ∧
    ∀ c ∈ padTake t (fillOf cells) cells,
      c ∈ cells ∨ (c = fillOf cells ∧ t.natAbs > cells.length) := by
  by_cases hbig : t.natAbs > cells.length
  · obtain ⟨hne, f, hf⟩ := hsafe hbig
    have hhead : cells.headD (.num 0) = cells.head hne := by
      cases cells with
      | nil => exact absurd rfl hne
      | cons x xs => rfl
    have hfillOf : fillOf cells = f := by
      unfold fillOf
      rw [hf]
    unfold take_pad padTake
    rcases le_or_lt 0 t with ht | ht
    · rw [if_pos ht, if_pos ht]
      have htake : cells.take t.natAbs = cells := List.take_of_length_le (by omega)
      rw [htake]
      rw [if_pos (by omega)]
      have hh : cells.head? = some (cells.headD (.num 0)) := by
        cases cells with
        | nil => exact absurd rfl hne
        | cons x xs => rfl
      rw [hh]
      simp only [hf, Except.map, hfillOf]
      refine ⟨trivial, ?_, ?_⟩
      · simp only [List.length_append, List.length_replicate]
        omega
      · intro c hc
        rcases List.mem_append.mp hc with h | h
        · exact Or.inl h
        · exact Or.inr ⟨List.eq_of_mem_replicate h, hbig⟩
    · rw [if_neg (not_le.mpr ht), if_neg (not_le.mpr ht)]
      have hdrop : cells.drop (cells.length - t.natAbs) = cells := by
        have : cells.length - t.natAbs = 0 := by omega
        rw [this, List.drop_zero]
      rw [hdrop]
      rw [if_pos (by omega)]
      have hh : cells.head? = some (cells.headD (.num 0)) := by
        cases cells with
        | nil => exact absurd rfl hne
        | cons x xs => rfl
      rw [hh]
      simp only [hf, Except.map, hfillOf]
      refine ⟨trivial, ?_, ?_⟩
      · simp only [List.length_append, List.length_replicate]
        omega
      · intro c hc
        rcases List.mem_append.mp hc with h | h
        · exact Or.inr ⟨List.eq_of_mem_replicate h, hbig⟩
        · exact Or.inl h
  · push_neg at hbig
    unfold take_pad padTake
    have hrep : t.natAbs - cells.length = 0 := by omega
    rcases le_or_lt 0 t with ht | ht
    · rw [if_pos ht, if_pos ht]
      have hlen : (cells.take t.natAbs).length = t.natAbs := by
        simp only [List.length_take]
        omega
      rw [if_neg (by omega), hrep]
      simp only [List.replicate_zero, List.append_nil]
      refine ⟨trivial, hlen, ?_⟩
      intro c hc
      exact Or.inl (List.mem_of_mem_take hc)
    · rw [if_neg (not_le.mpr ht), if_neg (not_le.mpr ht)]
      have hlen : (cells.drop (cells.length - t.natAbs)).length = t.natAbs := by
        simp only [List.length_drop]
        omega
      rw [if_neg (by omega), hrep]
      simp only [List.replicate_zero, List.nil_append]
      refine ⟨trivial, hlen, ?_⟩
      intro c hc
      exact Or.inl (List.mem_of_mem_drop hc)

theorem takeShape_length : ∀ (index : List Int) (shape : List Nat),
    index.length ≤ shape.length → (takeShape index shape).length = shape.length := by
  intro index
  induction index with
  | nil => intro shape _; cases shape <;> rfl
  | cons t rest ih =>
    intro shape hlen
    cases shape with
    | nil => simp at hlen
    | cons s0 tail =>
      simp only [takeShape]
      by_cases h1 : rest.isEmpty
      · rw [if_pos h1]
        simp
      · rw [if_neg h1]
        by_cases h2 : t.natAbs = 0
        · rw [if_pos h2]
          simp
        · rw [if_neg h2]
          simp only [List.length_cons]
          rw [ih tail (by simpa using hlen)]

theorem takeShape_drop : ∀ (index : List Int) (shape : List Nat),
    index.length ≤ shape.length →
    (takeShape index shape).drop index.length = shape.drop index.length := by
  intro index
  induction index with
  | nil => intro shape _; cases shape <;> rfl
  | cons t rest ih =>
    intro shape hlen
    cases shape with
    | nil => simp at hlen
    | cons s0 tail =>
      simp only [takeShape, List.length_cons]
      by_cases h1 : rest.isEmpty
      · rw [if_pos h1]
        have : rest = [] := List.isEmpty_iff.mp h1
        subst this
        simp
      · rw [if_neg h1]
        by_cases h2 : t.natAbs = 0
        · rw [if_pos h2]
          simp
        · rw [if_neg h2]
          simp only [List.drop_succ_cons]
          exact ih tail (by simpa using hlen)

theorem takeShape_getD : ∀ (index : List Int) (shape : List Nat) (j : Nat)
    (hj : j < index.length), index.length ≤ shape.length →
    (∀ l (hl : l < j), (index.get ⟨l, by omega⟩).natAbs ≠ 0) →
    (takeShape index shape).getD j 0 = (index.get ⟨j, hj⟩).natAbs := by
  intro index
  induction index with
  | nil => intro shape j hj; simp at hj
  | cons t rest ih =>
    intro shape j hj hlen hpre
    cases shape with
    | nil => simp at hlen
    | cons s0 tail =>
      simp only [takeShape]
      cases j with
      | zero =>
        by_cases h1 : rest.isEmpty
        · rw [if_pos h1]; rfl
        · rw [if_neg h1]
          by_cases h2 : t.natAbs = 0
          · rw [if_pos h2]; rfl
          · rw [if_neg h2]; rfl
      | succ j =>
        have hrest : ¬ rest.isEmpty := by
          simp only [List.length_cons] at hj
          cases rest with
          | nil => simp at hj
          | cons x xs => simp
        rw [if_neg hrest]
        have ht0 : t.natAbs ≠ 0 := hpre 0 (by omega)
        rw [if_neg ht0]
        simp only [List.getD_cons_succ, List.get_cons_succ]
        exact ih tail j (by simpa using hj) (by simpa using hlen)
          (fun l hl => hpre (l + 1) (by omega))

/-- Assembly of equal-shape array cells via `arrFromCells` at rank ≥ 2. -/
theorem arrFromCells_cells (s0 t1 : Nat) (ts : List Nat) (τ : List Nat) (cells : List Val)
    (hcells : ∀ c ∈ cells, ∃ dc, c = .arr τ dc ∧ dc.length = τ.prod)
    (hne : cells ≠ []) (hlen : cells.length = s0) :
    arrFromCells (s0 :: t1 :: ts) cells = ⟨s0 :: τ, (cells.map cellData).flatten⟩ ∧
    (cells.map cellData).flatten.length = (s0 :: τ).prod := by
  have hflat : (cells.map cellData).flatten.length = (s0 :: τ).prod := by
    rw [flatten_length_uniform τ.prod (cells.map cellData) ?_]
    · rw [List.length_map, hlen,
        show (s0 :: τ).prod = s0 * τ.prod from List.prod_cons]
    · intro x hx
      obtain ⟨c, hc, hcx⟩ := List.mem_map.mp hx
      obtain ⟨dc, hdc, hdclen⟩ := hcells c hc
      rw [← hcx, hdc]
      exact hdclen
  refine ⟨?_, hflat⟩
  cases cells with
  | nil => exact absurd rfl hne
  | cons c cs =>
    obtain ⟨dc, hdc, _⟩ := hcells c (by simp)
    unfold arrFromCells
    rw [show (c :: cs).head? = some c from rfl, hdc]

/-- Success and shape of `take_array`: provided every axis that must pad
is nonempty and (when some axis pads) the array is function-free, the take
completes and produces the `takeShape` extents. -/
theorem take_array_ok : ∀ (index : List Int) (a : Arr),
    a.wf → index ≠ [] → index.length ≤ a.shape.length →
    (∀ j (hj : j < index.length), (index.get ⟨j, hj⟩).natAbs > a.shape.getD j 0 →
        0 < a.shape.getD j 0) →
    ((∃ j, ∃ hj : j < index.length, (index.get ⟨j, hj⟩).natAbs > a.shape.getD j 0) →
        funcFreeList a.data = true) →
    ∃ r, take_array index a = .ok r ∧ r.wf ∧ r.shape = takeShape index a.shape := by
  intro index
  induction index with
  | nil => intro a _ hne; exact absurd rfl hne
  | cons t rest ih =>
    intro a hwf hne hlen hpos hff
    obtain ⟨shape, data⟩ := a
    cases shape with
    | nil => simp at hlen
    | cons s0 tail =>
      have hclen : (Arr.mk (s0 :: tail) data).intoValues.length = s0 := by
        rw [intoValues_length _ hwf (by simp)]
        rfl
      have hsafe : t.natAbs > (Arr.mk (s0 :: tail) data).intoValues.length →
          (Arr.mk (s0 :: tail) data).intoValues ≠ [] ∧
          ∃ f, fill_value ((Arr.mk (s0 :: tail) data).intoValues.headD (.num 0)) = .ok f := by
        intro hbig
        rw [hclen] at hbig
        have hs0 : 0 < s0 := by
          have := hpos 0 (by simp) (by simpa using hbig)
          simpa using this
        have hcne : (Arr.mk (s0 :: tail) data).intoValues ≠ [] := by
          intro h
          rw [h] at hclen
          simp at hclen
          omega
        refine ⟨hcne, ?_⟩
        have hffd : funcFreeList data = true := hff ⟨0, by simp, by simpa using hbig⟩
        have hhd : (Arr.mk (s0 :: tail) data).intoValues.headD (.num 0)
            ∈ (Arr.mk (s0 :: tail) data).intoValues := by
          cases hcl : (Arr.mk (s0 :: tail) data).intoValues with
          | nil => exact absurd hcl hcne
          | cons x xs => simp [hcl]
        exact fill_value_ok_of_funcFree _ (intoValues_funcFree _ hffd _ hhd)
      obtain ⟨hpad, hklen, hkmem⟩ :=
        take_pad_ok t (Arr.mk (s0 :: tail) data).intoValues hsafe
      have hkcell : ∀ (t1 : Nat) (ts : List Nat), tail = t1 :: ts →
          ∀ c ∈ padTake t (fillOf (Arr.mk (s0 :: tail) data).intoValues)
              (Arr.mk (s0 :: tail) data).intoValues,
            ∃ dc, c = .arr tail dc ∧ dc.length = tail.prod ∧
              (funcFreeList data = true → funcFreeList dc = true) := by
        intro t1 ts htail c hc
        rcases hkmem c hc with hmem | ⟨hfill, hbig⟩
        · subst htail
          exact intoValues_cells (Arr.mk (s0 :: t1 :: ts) data) hwf s0 t1 ts rfl c hmem
        · obtain ⟨hcne, f, hf⟩ := hsafe hbig
          have hhd : (Arr.mk (s0 :: tail) data).intoValues.headD (.num 0)
              ∈ (Arr.mk (s0 :: tail) data).intoValues := by
            cases hcl : (Arr.mk (s0 :: tail) data).intoValues with
            | nil => exact absurd hcl hcne
            | cons x xs => simp [hcl]
          subst htail
          obtain ⟨dh, hdh, hdhlen, _⟩ :=
            intoValues_cells (Arr.mk (s0 :: t1 :: ts) data) hwf s0 t1 ts rfl _ hhd
          have hfillOf : fillOf (Arr.mk (s0 :: t1 :: ts) data).intoValues = f := by
            unfold fillOf
            rw [hf]
          obtain ⟨ws, hws, hwslen⟩ := fill_value_arr_shape (t1 :: ts) dh f
            (by rw [← hdh]; exact hf)
          refine ⟨ws, by rw [hfill, hfillOf, hws], by rw [hwslen, hdhlen], ?_⟩
          intro hffd
          have hw := fill_value_funcFree _ f hf
          rw [hws] at hw
          simpa [funcFree] using hw
      simp only [take_array, hpad]
      cases hrest : rest with
      | nil =>
        simp only [List.isEmpty_nil, if_true]
        cases tail with
        | nil =>
          refine ⟨⟨[t.natAbs],
            padTake t (fillOf (Arr.mk [s0] data).intoValues)
              (Arr.mk [s0] data).intoValues⟩, rfl, ?_, ?_⟩
          · unfold Arr.wf
            simp only [List.prod_cons, List.prod_nil, mul_one]
            exact hklen
          · simp [takeShape]
        | cons t1 ts =>
          rcases hkept : padTake t (fillOf (Arr.mk (s0 :: t1 :: ts) data).intoValues)
              (Arr.mk (s0 :: t1 :: ts) data).intoValues with _ | ⟨c, cs⟩
          · have ht0 : t.natAbs = 0 := by
              rw [hkept] at hklen
              simpa using hklen.symm
            refine ⟨⟨t.natAbs :: t1 :: ts, []⟩, rfl, ?_, ?_⟩
            · unfold Arr.wf
              simp [ht0]
            · simp [takeShape]
          · rw [hkept] at hklen hkcell
            obtain ⟨heq, hflat⟩ := arrFromCells_cells t.natAbs t1 ts (t1 :: ts) (c :: cs)
              (fun x hx => by
                obtain ⟨dx, hdx, hdxlen, _⟩ := hkcell t1 ts rfl x hx
                exact ⟨dx, hdx, hdxlen⟩)
              (by simp) hklen
            refine ⟨_, congrArg Except.ok heq, hflat, ?_⟩
            simp [takeShape]
      | cons r1 rs =>
        rw [← hrest]
        have hrestne : rest ≠ [] := by rw [hrest]; simp
        have hrestE : rest.isEmpty = false := by rw [hrest]; rfl
        cases tail with
        | nil =>
          simp only [List.length_cons, List.length_nil] at hlen
          have : rest.length = 0 := by simpa using hlen
          exact absurd (List.eq_nil_of_length_eq_zero this) hrestne
        | cons t1 ts =>
          rw [hrestE]
          simp only [Bool.false_eq_true, if_false]
          have hrec : ∀ c ∈ padTake t (fillOf (Arr.mk (s0 :: t1 :: ts) data).intoValues)
              (Arr.mk (s0 :: t1 :: ts) data).intoValues,
              ∃ rc, take_array rest (coerceArr c) = .ok rc ∧
                rc.wf ∧ rc.shape = takeShape rest (t1 :: ts) := by
            intro c hc
            obtain ⟨dc, hdc, hdclen, hdcff⟩ := hkcell t1 ts rfl c hc
            have hco : coerceArr c = ⟨t1 :: ts, dc⟩ := by rw [hdc]; rfl
            rw [hco]
            apply ih ⟨t1 :: ts, dc⟩ hdclen hrestne
            · simpa using hlen
            · intro j hj hjover
              have := hpos (j + 1) (by simpa using hj) (by simpa using hjover)
              simpa using this
            · rintro ⟨j, hj, hjover⟩
              apply hdcff
              apply hff
              exact ⟨j + 1, by simpa using hj, by simpa using hjover⟩
          have hmap : mapExc (fun c => (take_array rest (coerceArr c)).map Arr.toVal)
              (padTake t (fillOf (Arr.mk (s0 :: t1 :: ts) data).intoValues)
                (Arr.mk (s0 :: t1 :: ts) data).intoValues)
              = .ok ((padTake t (fillOf (Arr.mk (s0 :: t1 :: ts) data).intoValues)
                  (Arr.mk (s0 :: t1 :: ts) data).intoValues).map (fun c =>
                  (match take_array rest (coerceArr c) with
                    | .ok r => r
                    | .error _ => Arr.mk [] []).toVal)) := by
            apply mapExc_map_eq
            intro c hc
            obtain ⟨rc, hok, _, _⟩ := hrec c hc
            rw [hok]
            rfl
          rw [hmap]
          have hc2 : ∀ x ∈ (padTake t (fillOf (Arr.mk (s0 :: t1 :: ts) data).intoValues)
              (Arr.mk (s0 :: t1 :: ts) data).intoValues).map (fun c =>
                (match take_array rest (coerceArr c) with
                  | .ok r => r
                  | .error _ => Arr.mk [] []).toVal),
              ∃ dx, x = .arr (takeShape rest (t1 :: ts)) dx ∧
                dx.length = (takeShape rest (t1 :: ts)).prod := by
            intro x hx
            obtain ⟨c, hc, hcx⟩ := List.mem_map.mp hx
            obtain ⟨rc, hok, hrcwf, hrcshape⟩ := hrec c hc
            rw [← hcx, hok]
            exact ⟨rc.data, by rw [← hrcshape]; rfl, by rw [← hrcshape, ← hrcwf]⟩
          rcases hkept : padTake t (fillOf (Arr.mk (s0 :: t1 :: ts) data).intoValues)
              (Arr.mk (s0 :: t1 :: ts) data).intoValues with _ | ⟨c, cs⟩
          · have ht0 : t.natAbs = 0 := by
              rw [hkept] at hklen
              simpa using hklen.symm
            refine ⟨⟨t.natAbs :: t1 :: ts, []⟩, rfl, ?_, ?_⟩
            · unfold Arr.wf
              simp [ht0]
            · rw [takeShape, if_neg (by rw [hrestE]; simp), if_pos ht0, ht0]
          · rw [hkept] at hklen hc2
            have hc2ne : ((c :: cs).map (fun c =>
                  (match take_array rest (coerceArr c) with
                    | .ok r => r
                    | .error _ => Arr.mk [] []).toVal)) ≠ [] := by
              simp
            have ht0 : t.natAbs ≠ 0 := by
              simp only [List.length_cons] at hklen
              omega
            obtain ⟨heq, hflat⟩ := arrFromCells_cells t.natAbs t1 ts
              (takeShape rest (t1 :: ts)) _ hc2 hc2ne
              (by rw [List.length_map]; exact hklen)
            refine ⟨_, congrArg Except.ok heq, hflat, ?_⟩
            rw [takeShape, if_neg (by rw [hrestE]; simp), if_neg ht0]

theorem dropTransform_length (index : List Int) (shape : List Nat)
    (h : index.length ≤ shape.length) :
    (dropTransform index shape).length = index.length := by
  simp only [dropTransform, List.length_map, List.length_zip]
  omega

theorem dropTransform_getD (index : List Int) (shape : List Nat) (j : Nat)
    (hj : j < index.length) (hjs : j < shape.length) :
    (dropTransform index shape).getD j 0
      = if 0 ≤ index.getD j 0 then min 0 (index.getD j 0 - (shape.getD j 0 : Int))
        else max 0 ((shape.getD j 0 : Int) + index.getD j 0) := by
  have hzip : j < (index.zip shape).length := by
    simp only [List.length_zip]
    omega
  have hmap : j < (dropTransform index shape).length := by
    simp only [dropTransform, List.length_map, List.length_zip]
    omega
  rw [List.getD_eq_getElem _ _ hmap]
  show (List.map _ (index.zip shape))[j] = _
  rw [List.getElem_map, List.getElem_zip]
  rw [List.getD_eq_getElem index 0 hj, List.getD_eq_getElem shape 0 hjs]

/-- Entries of the clamped index never exceed the axis extent, so the
delegated take never pads. -/
theorem dropTransform_abs_le (index : List Int) (shape : List Nat) (j : Nat)
    (hj : j < index.length) (hjs : j < shape.length) :
    ((dropTransform index shape).getD j 0).natAbs ≤ shape.getD j 0 := by
  rw [dropTransform_getD index shape j hj hjs]
  rcases le_or_lt 0 (index.getD j 0) with h | h
  · rw [if_pos h]
    omega
  · rw [if_neg (not_le.mpr h)]
    omega

/-- **C4.** `drop(I, A)` is exactly `take` applied with each index
replaced by `min(0, iⱼ − sⱼ)` (for `iⱼ ≥ 0`) or `max(0, sⱼ + iⱼ)` (for
`iⱼ < 0`); for nonempty `I` it always succeeds — no fill is ever consulted,
even for arrays with no fill value — and along every axis `j` whose drop
count reaches the extent the resulting extent is 0, provided no earlier
clamped index was already 0 (once an axis keeps zero cells the later
extents stay at their original values; see the counterexample). -/
theorem c4_drop_is_clamped_take (index : List Int) (a : Arr)
    (hwf : a.wf) (hrank : 1 ≤ a.shape.length) (hlen : index.length ≤ a.shape.length) :
    valueDrop index a = take_array (dropTransform index a.shape) a ∧
    (index ≠ [] →
      ∃ r, valueDrop index a = .ok r ∧ r.wf ∧
        r.shape = takeShape (dropTransform index a.shape) a.shape ∧
        ∀ j (hj : j < index.length),
          (∀ l, l < j → (dropTransform index a.shape).getD l 0 ≠ 0) →
          (index.get ⟨j, hj⟩).natAbs ≥ a.shape.getD j 0 →
          r.shape.getD j 0 = 0) := by
  refine ⟨rfl, ?_⟩
  intro hne
  have hTlen : (dropTransform index a.shape).length = index.length :=
    dropTransform_length index a.shape hlen
  have hTne : dropTransform index a.shape ≠ [] := by
    intro h
    rw [h] at hTlen
    exact hne (List.eq_nil_of_length_eq_zero hTlen.symm)
  have hgetD_get : ∀ l (hl : l < (dropTransform index a.shape).length),
      (dropTransform index a.shape).getD l 0 = (dropTransform index a.shape).get ⟨l, hl⟩ := by
    intro l hl
    rw [List.getD_eq_getElem _ _ hl, List.get_eq_getElem]
  have habs : ∀ j (hj : j < (dropTransform index a.shape).length),
      ((dropTransform index a.shape).get ⟨j, hj⟩).natAbs ≤ a.shape.getD j 0 := by
    intro j hj
    have hj2 : j < index.length := by omega
    have hjs : j < a.shape.length := by omega
    have hd := dropTransform_abs_le index a.shape j hj2 hjs
    rw [hgetD_get j hj] at hd
    exact hd
  obtain ⟨r, hok, hrwf, hrshape⟩ := take_array_ok (dropTransform index a.shape) a hwf hTne
    (by rw [hTlen]; exact hlen)
    (fun j hj hover => absurd hover (not_lt.mpr (habs j hj)))
    (fun ⟨j, hj, hover⟩ => absurd hover (not_lt.mpr (habs j hj)))
  refine ⟨r, hok, hrwf, hrshape, ?_⟩
  intro j hj hpre hbig
  have hj2 : j < (dropTransform index a.shape).length := by omega
  have hjs : j < a.shape.length := by omega
  have hzero : (dropTransform index a.shape).getD j 0 = 0 := by
    rw [dropTransform_getD index a.shape j hj hjs]
    have hieq : index.getD j 0 = index.get ⟨j, hj⟩ := by
      rw [List.getD_eq_getElem _ _ hj, List.get_eq_getElem]
    rcases le_or_lt 0 (index.getD j 0) with h | h
    · rw [if_pos h]
      rw [hieq] at h ⊢
      omega
    · rw [if_neg (not_le.mpr h)]
      rw [hieq] at h ⊢
      omega
  rw [hgetD_get j hj2] at hzero
  have hts := takeShape_getD (dropTransform index a.shape) a.shape j hj2
    (by rw [hTlen]; exact hlen)
    (fun l hl => by
      have hgd := hpre l (by omega)
      intro h0
      apply hgd
      rw [hgetD_get l (by omega)]
      exact Int.natAbs_eq_zero.mp h0)
  rw [hrshape, hts]
  exact Int.natAbs_eq_zero.mpr hzero

/-- Witness for C4 at `drop([5], [10,20,30])`: delegating take index is
`min(0, 5−3) = 0`, the drop succeeds with extent 0 and no padding. -/
theorem c4_drop_is_clamped_take_witness :
    valueDrop [5] ⟨[3], [.num 10, .num 20, .num 30]⟩
      = take_array (dropTransform [5] [3]) ⟨[3], [.num 10, .num 20, .num 30]⟩ ∧
    valueDrop [5] ⟨[3], [.num 10, .num 20, .num 30]⟩ = .ok ⟨[0], []⟩ ∧
    ((⟨[0], []⟩ : Arr)).shape.getD 0 0 = 0 := by
  have h := c4_drop_is_clamped_take [5] ⟨[3], [.num 10, .num 20, .num 30]⟩
    (by decide) (by decide) (by decide)
  obtain ⟨r, hok, _, _, hext⟩ := h.2 (by decide)
  have h2 : valueDrop [5] ⟨[3], [.num 10, .num 20, .num 30]⟩
      = (.ok (⟨[0], []⟩ : Arr) : Except String Arr) := by rfl
  rw [h2] at hok
  have hr : r = (⟨[0], []⟩ : Arr) := (Except.ok.inj hok).symm
  subst hr
  exact ⟨h.1, h2, hext 0 (by decide) (fun l hl => absurd hl (by omega)) (by decide)⟩

/-- **C4 (scope note, counterexample).** The claim's "for every `iⱼ` with
`|iⱼ| ≥ sⱼ` the resulting extent along axis `j` is 0" fails once an earlier
axis already dropped everything: `drop([5,7], 3×4)` clamps to take
`[0, 0]`, the empty axis 0 leaves nothing to recurse into, and the result
keeps the stale extent 4 on axis 1. -/
theorem c4_counterexample_stale_axis :
    valueDrop [5, 7] ⟨[3, 4], List.replicate 12 (Val.num 0)⟩ = .ok ⟨[0, 4], []⟩ ∧
    (7 : Int).natAbs ≥ 4 ∧ ([0, 4] : List Nat).getD 1 0 = 4 ∧ (4 : Nat) ≠ 0 := by
  refine ⟨by rfl, by decide, by rfl, by decide⟩


/-- With no interior zero index, no axis goes stale and `takeShape` is
exactly the spec shape: `|iⱼ|` per indexed axis, the rest unchanged. -/
theorem takeShape_eq_spec : ∀ (index : List Int) (shape : List Nat),
    index.length ≤ shape.length →
    (∀ j (hj : j < index.length), j + 1 < index.length → index.get ⟨j, hj⟩ ≠ 0) →
    takeShape index shape = index.map Int.natAbs ++ shape.drop index.length := by
  intro index
  induction index with
  | nil => intro shape _ _; cases shape <;> rfl
  | cons t rest ih =>
    intro shape hlen hz
    cases shape with
    | nil => simp at hlen
    | cons s0 tail =>
      rcases hrest : rest with _ | ⟨r1, rs⟩
      · simp [takeShape]
      · rw [← hrest]
        have hrlen : 1 ≤ rest.length := by rw [hrest]; simp
        have ht0 : t ≠ 0 := hz 0 (by simp) (by simp only [List.length_cons]; omega)
        have htabs : t.natAbs ≠ 0 := fun h => ht0 (Int.natAbs_eq_zero.mp h)
        have hrestE : ¬ rest.isEmpty := by rw [hrest]; simp
        simp only [takeShape]
        rw [if_neg hrestE, if_neg htabs]
        have hz2 : ∀ j (hj : j < rest.length), j + 1 < rest.length →
            rest.get ⟨j, hj⟩ ≠ 0 := by
          intro j hj hj1
          have h := hz (j + 1) (by simp only [List.length_cons]; omega)
            (by simp only [List.length_cons]; omega)
          simpa using h
        rw [ih tail (by simpa using hlen) hz2]
        simp

/-- Unfolding `takeSpec` for a one-element index on a rank-1 array. -/
theorem takeSpec_one_rank1 (t : Int) (s0 : Nat) (data : List Val) :
    takeSpec [t] ⟨[s0], data⟩
      = ⟨[t.natAbs], padTake t (fillOf (Arr.mk [s0] data).intoValues)
          (Arr.mk [s0] data).intoValues⟩ := rfl

/-- Unfolding `takeSpec` for a one-element index on a rank-≥2 array. -/
theorem takeSpec_one_rank2plus (t : Int) (s0 t1 : Nat) (ts : List Nat) (data : List Val) :
    takeSpec [t] ⟨s0 :: t1 :: ts, data⟩
      = ⟨t.natAbs :: t1 :: ts,
          ((padTake t (fillOf (Arr.mk (s0 :: t1 :: ts) data).intoValues)
            (Arr.mk (s0 :: t1 :: ts) data).intoValues).map cellData).flatten⟩ := rfl

/-- Unfolding `takeSpec` for a multi-element index on a rank-≥2 array. -/
theorem takeSpec_cons_ne (t : Int) (rest : List Int) (s0 t1 : Nat) (ts : List Nat)
    (data : List Val) (hne : rest ≠ []) :
    takeSpec (t :: rest) ⟨s0 :: t1 :: ts, data⟩
      = ⟨t.natAbs :: rest.map Int.natAbs ++ (t1 :: ts).drop rest.length,
          (((padTake t (fillOf (Arr.mk (s0 :: t1 :: ts) data).intoValues)
              (Arr.mk (s0 :: t1 :: ts) data).intoValues).map
            (fun c => (takeSpec rest (coerceArr c)).toVal)).map cellData).flatten⟩ := by
  cases rest with
  | nil => exact absurd rfl hne
  | cons r1 rs => rfl

/-- `take_array` refines the §4.4 description `takeSpec`: same hypotheses
as `take_array_ok` plus "zero indices only in the last position" (an
interior zero leaves no cells to recurse into, and `take_array` then keeps
stale trailing extents, diverging from the spec shape). -/
theorem take_array_refines : ∀ (index : List Int) (a : Arr),
    a.wf → index ≠ [] → index.length ≤ a.shape.length →
    (∀ j (hj : j < index.length), (index.get ⟨j, hj⟩).natAbs > a.shape.getD j 0 →
        0 < a.shape.getD j 0) →
    ((∃ j, ∃ hj : j < index.length, (index.get ⟨j, hj⟩).natAbs > a.shape.getD j 0) →
        funcFreeList a.data = true) →
    (∀ j (hj : j < index.length), j + 1 < index.length → index.get ⟨j, hj⟩ ≠ 0) →
    take_array index a = .ok (takeSpec index a) := by
  intro index
  induction index with
  | nil => intro a _ hne; exact absurd rfl hne
  | cons t rest ih =>
    intro a hwf hne hlen hpos hff hz
    obtain ⟨shape, data⟩ := a
    cases shape with
    | nil => simp at hlen
    | cons s0 tail =>
      have hclen : (Arr.mk (s0 :: tail) data).intoValues.length = s0 := by
        rw [intoValues_length _ hwf (by simp)]
        rfl
      have hsafe : t.natAbs > (Arr.mk (s0 :: tail) data).intoValues.length →
          (Arr.mk (s0 :: tail) data).intoValues ≠ [] ∧
          ∃ f, fill_value ((Arr.mk (s0 :: tail) data).intoValues.headD (.num 0)) = .ok f := by
        intro hbig
        rw [hclen] at hbig
        have hs0 : 0 < s0 := by
          have := hpos 0 (by simp) (by simpa using hbig)
          simpa using this
        have hcne : (Arr.mk (s0 :: tail) data).intoValues ≠ [] := by
          intro h
          rw [h] at hclen
          simp at hclen
          omega
        refine ⟨hcne, ?_⟩
        have hffd : funcFreeList data = true := hff ⟨0, by simp, by simpa using hbig⟩
        have hhd : (Arr.mk (s0 :: tail) data).intoValues.headD (.num 0)
            ∈ (Arr.mk (s0 :: tail) data).intoValues := by
          cases hcl : (Arr.mk (s0 :: tail) data).intoValues with
          | nil => exact absurd hcl hcne
          | cons x xs => simp [hcl]
        exact fill_value_ok_of_funcFree _ (intoValues_funcFree _ hffd _ hhd)
      obtain ⟨hpad, hklen, hkmem⟩ :=
        take_pad_ok t (Arr.mk (s0 :: tail) data).intoValues hsafe
      have hkcell : ∀ (t1 : Nat) (ts : List Nat), tail = t1 :: ts →
          ∀ c ∈ padTake t (fillOf (Arr.mk (s0 :: tail) data).intoValues)
              (Arr.mk (s0 :: tail) data).intoValues,
            ∃ dc, c = .arr tail dc ∧ dc.length = tail.prod ∧
              (funcFreeList data = true → funcFreeList dc = true) := by
        intro t1 ts htail c hc
        rcases hkmem c hc with hmem | ⟨hfill, hbig⟩
        · subst htail
          exact intoValues_cells (Arr.mk (s0 :: t1 :: ts) data) hwf s0 t1 ts rfl c hmem
        · obtain ⟨hcne, f, hf⟩ := hsafe hbig
          have hhd : (Arr.mk (s0 :: tail) data).intoValues.headD (.num 0)
              ∈ (Arr.mk (s0 :: tail) data).intoValues := by
            cases hcl : (Arr.mk (s0 :: tail) data).intoValues with
            | nil => exact absurd hcl hcne
            | cons x xs => simp [hcl]
          subst htail
          obtain ⟨dh, hdh, hdhlen, _⟩ :=
            intoValues_cells (Arr.mk (s0 :: t1 :: ts) data) hwf s0 t1 ts rfl _ hhd
          have hfillOf : fillOf (Arr.mk (s0 :: t1 :: ts) data).intoValues = f := by
            unfold fillOf
            rw [hf]
          obtain ⟨ws, hws, hwslen⟩ := fill_value_arr_shape (t1 :: ts) dh f
            (by rw [← hdh]; exact hf)
          refine ⟨ws, by rw [hfill, hfillOf, hws], by rw [hwslen, hdhlen], ?_⟩
          intro hffd
          have hw := fill_value_funcFree _ f hf
          rw [hws] at hw
          simpa [funcFree] using hw
      simp only [take_array, hpad]
      cases hrest : rest with
      | nil =>
        simp only [List.isEmpty_nil, if_true]
        cases tail with
        | nil =>
          refine congrArg Except.ok ?_
          rw [takeSpec_one_rank1]
          rcases hkept : padTake t (fillOf (Arr.mk [s0] data).intoValues)
              (Arr.mk [s0] data).intoValues with _ | ⟨c, cs⟩
          · rfl
          · cases c <;> rfl
        | cons t1 ts =>
          refine congrArg Except.ok ?_
          rw [takeSpec_one_rank2plus]
          rcases hkept : padTake t (fillOf (Arr.mk (s0 :: t1 :: ts) data).intoValues)
              (Arr.mk (s0 :: t1 :: ts) data).intoValues with _ | ⟨c, cs⟩
          · rfl
          · rw [hkept] at hklen hkcell
            obtain ⟨heq, _⟩ := arrFromCells_cells t.natAbs t1 ts (t1 :: ts) (c :: cs)
              (fun x hx => by
                obtain ⟨dx, hdx, hdxlen, _⟩ := hkcell t1 ts rfl x hx
                exact ⟨dx, hdx, hdxlen⟩)
              (by simp) hklen
            exact heq
      | cons r1 rs =>
        rw [← hrest]
        have hrestne : rest ≠ [] := by rw [hrest]; simp
        have hrestE : rest.isEmpty = false := by rw [hrest]; rfl
        have ht0 : t ≠ 0 := hz 0 (by simp) (by rw [hrest]; simp)
        have htabs : t.natAbs ≠ 0 := fun h => ht0 (Int.natAbs_eq_zero.mp h)
        have hz2 : ∀ j (hj : j < rest.length), j + 1 < rest.length →
            rest.get ⟨j, hj⟩ ≠ 0 := by
          intro j hj hj1
          have h := hz (j + 1) (by simp only [List.length_cons]; omega)
            (by simp only [List.length_cons]; omega)
          simpa using h
        cases tail with
        | nil =>
          simp only [List.length_cons, List.length_nil] at hlen
          have : rest.length = 0 := by simpa using hlen
          exact absurd (List.eq_nil_of_length_eq_zero this) hrestne
        | cons t1 ts =>
          rw [hrestE]
          simp only [Bool.false_eq_true, if_false]
          have hcell0 : ∀ c ∈ padTake t (fillOf (Arr.mk (s0 :: t1 :: ts) data).intoValues)
              (Arr.mk (s0 :: t1 :: ts) data).intoValues,
              ∃ rc, take_array rest (coerceArr c) = .ok rc ∧
                rc.wf ∧ rc.shape = takeShape rest (t1 :: ts) := by
            intro c hc
            obtain ⟨dc, hdc, hdclen, hdcff⟩ := hkcell t1 ts rfl c hc
            have hco : coerceArr c = ⟨t1 :: ts, dc⟩ := by rw [hdc]; rfl
            rw [hco]
            apply take_array_ok rest ⟨t1 :: ts, dc⟩ hdclen hrestne
            · simpa using hlen
            · intro j hj hjover
              have := hpos (j + 1) (by simpa using hj) (by simpa using hjover)
              simpa using this
            · rintro ⟨j, hj, hjover⟩
              apply hdcff
              apply hff
              exact ⟨j + 1, by simpa using hj, by simpa using hjover⟩
          have hrec : ∀ c ∈ padTake t (fillOf (Arr.mk (s0 :: t1 :: ts) data).intoValues)
              (Arr.mk (s0 :: t1 :: ts) data).intoValues,
              take_array rest (coerceArr c) = .ok (takeSpec rest (coerceArr c)) := by
            intro c hc
            obtain ⟨dc, hdc, hdclen, hdcff⟩ := hkcell t1 ts rfl c hc
            have hco : coerceArr c = ⟨t1 :: ts, dc⟩ := by rw [hdc]; rfl
            rw [hco]
            apply ih ⟨t1 :: ts, dc⟩ hdclen hrestne
            · simpa using hlen
            · intro j hj hjover
              have := hpos (j + 1) (by simpa using hj) (by simpa using hjover)
              simpa using this
            · rintro ⟨j, hj, hjover⟩
              apply hdcff
              apply hff
              exact ⟨j + 1, by simpa using hj, by simpa using hjover⟩
            · exact hz2
          have hmap : mapExc (fun c => (take_array rest (coerceArr c)).map Arr.toVal)
              (padTake t (fillOf (Arr.mk (s0 :: t1 :: ts) data).intoValues)
                (Arr.mk (s0 :: t1 :: ts) data).intoValues)
              = .ok ((padTake t (fillOf (Arr.mk (s0 :: t1 :: ts) data).intoValues)
                  (Arr.mk (s0 :: t1 :: ts) data).intoValues).map (fun c =>
                    (takeSpec rest (coerceArr c)).toVal)) := by
            apply mapExc_map_eq
            intro c hc
            rw [hrec c hc]
            rfl
          rw [hmap]
          have hc2 : ∀ x ∈ (padTake t (fillOf (Arr.mk (s0 :: t1 :: ts) data).intoValues)
              (Arr.mk (s0 :: t1 :: ts) data).intoValues).map (fun c =>
                (takeSpec rest (coerceArr c)).toVal),
              ∃ dx, x = .arr (takeShape rest (t1 :: ts)) dx ∧
                dx.length = (takeShape rest (t1 :: ts)).prod := by
            intro x hx
            obtain ⟨c, hc, hcx⟩ := List.mem_map.mp hx
            obtain ⟨rc, hok, hrcwf, hrcshape⟩ := hcell0 c hc
            have hspec := hrec c hc
            rw [hok] at hspec
            have hrc : rc = takeSpec rest (coerceArr c) := Except.ok.inj hspec
            refine ⟨(takeSpec rest (coerceArr c)).data, ?_, ?_⟩
            · rw [← hcx]
              show (takeSpec rest (coerceArr c)).toVal = _
              rw [Arr.toVal, ← hrc, hrcshape]
            · rw [← hrc, ← hrcshape]
              exact hrcwf
          have hkne2 : ((padTake t (fillOf (Arr.mk (s0 :: t1 :: ts) data).intoValues)
              (Arr.mk (s0 :: t1 :: ts) data).intoValues).map (fun c =>
                (takeSpec rest (coerceArr c)).toVal)) ≠ [] := by
            intro h
            have hlen2 := congrArg List.length h
            rw [List.length_map, hklen] at hlen2
            simp at hlen2
            exact ht0 hlen2
          obtain ⟨heq, _⟩ := arrFromCells_cells t.natAbs t1 ts (takeShape rest (t1 :: ts))
            ((padTake t (fillOf (Arr.mk (s0 :: t1 :: ts) data).intoValues)
              (Arr.mk (s0 :: t1 :: ts) data).intoValues).map (fun c =>
                (takeSpec rest (coerceArr c)).toVal)) hc2 hkne2
            (by rw [List.length_map]; exact hklen)
          have hshape : takeShape rest (t1 :: ts)
              = rest.map Int.natAbs ++ (t1 :: ts).drop rest.length :=
            takeShape_eq_spec rest (t1 :: ts) (by simpa using hlen) hz2
          have hspec2 : takeSpec (t :: rest) ⟨s0 :: t1 :: ts, data⟩
              = ⟨t.natAbs :: takeShape rest (t1 :: ts),
                  (((padTake t (fillOf (Arr.mk (s0 :: t1 :: ts) data).intoValues)
                      (Arr.mk (s0 :: t1 :: ts) data).intoValues).map
                    (fun c => (takeSpec rest (coerceArr c)).toVal)).map cellData).flatten⟩ := by
            rw [takeSpec_cons_ne t rest s0 t1 ts data hrestne, hshape]
            rw [List.cons_append]
          exact congrArg Except.ok (heq.trans hspec2.symm)

/-- **C3.** Corrected: `take(I, A)` matches the §4.4 axis-by-axis padded
selection `takeSpec` — extent `|iⱼ|` per indexed axis (first `|iⱼ|` cells
padded right for `iⱼ ≥ 0`, last `|iⱼ|` padded left for `iⱼ < 0`), later
extents unchanged — provided every axis that must pad has at least one
cell (otherwise the `cells[0]` fill lookup panics; see the
counterexample), the array is function-free whenever padding occurs, and
no index before the last is zero (an interior zero leaves stale trailing
extents).  The spec's concrete examples `take([5], [10,20,30])` and
`take([-5], [10,20,30])` hold. -/
theorem c3_take_padded_selection (index : List Int) (a : Arr)
    (hwf : a.wf) (hne : index ≠ []) (hlen : index.length ≤ a.shape.length)
    (hpos : ∀ j (hj : j < index.length), (index.get ⟨j, hj⟩).natAbs > a.shape.getD j 0 →
        0 < a.shape.getD j 0)
    (hff : (∃ j, ∃ hj : j < index.length, (index.get ⟨j, hj⟩).natAbs > a.shape.getD j 0) →
        funcFreeList a.data = true)
    (hz : ∀ j (hj : j < index.length), j + 1 < index.length → index.get ⟨j, hj⟩ ≠ 0) :
    take_array index a = .ok (takeSpec index a) ∧
    take_array [5] ⟨[3], [.num 10, .num 20, .num 30]⟩
      = .ok ⟨[5], [.num 10, .num 20, .num 30, .num 0, .num 0]⟩ ∧
    take_array [-5] ⟨[3], [.num 10, .num 20, .num 30]⟩
      = .ok ⟨[5], [.num 0, .num 0, .num 10, .num 20, .num 30]⟩ :=
  ⟨take_array_refines index a hwf hne hlen hpos hff hz, rfl, rfl⟩

/-- **C3 (witness).** The refinement applied to `take([5], [10,20,30])`,
whose `takeSpec` value evaluates to `[10,20,30,0,0]` with shape `[5]`. -/
theorem c3_take_padded_selection_witness :
    take_array [5] ⟨[3], [.num 10, .num 20, .num 30]⟩
      = .ok (takeSpec [5] ⟨[3], [.num 10, .num 20, .num 30]⟩) ∧
    takeSpec [5] ⟨[3], [.num 10, .num 20, .num 30]⟩
      = ⟨[5], [.num 10, .num 20, .num 30, .num 0, .num 0]⟩ :=
  ⟨(c3_take_padded_selection [5] ⟨[3], [.num 10, .num 20, .num 30]⟩
      (by decide) (by decide) (by decide)
      (by
        intro j hj hb
        have hj0 : j = 0 := by
          simp only [List.length_cons, List.length_nil] at hj
          omega
        subst hj0
        decide)
      (fun _ => by decide)
      (by
        intro j hj h1
        simp only [List.length_cons, List.length_nil] at h1
        omega)).1,
    by rfl⟩

/-- **C3 (counterexample).** The claim promises extent `|iⱼ|` with fill
padding for every rank-≥1 array, but taking 1 cell from an empty vector
panics (`cells[0]` on an empty axis) instead of producing `[fill]`. -/
theorem c3_counterexample_empty_axis :
    take_array [1] ⟨[0], []⟩ = .error "panic: cells[0] on empty axis" ∧
    ((1 : Int).natAbs = 1 ∧ ([1] : List Int).length ≤ ([0] : List Nat).length) := by
  exact ⟨rfl, rfl, by decide⟩


/-- The shape `array_windows` produces: each indexed axis contributes its
window count `sⱼ − wⱼ + 1` immediately followed by the window extent `wⱼ`
(interleaved), then the untouched trailing shape. -/
def windowsShape : List Nat → List Nat → List Nat
  | [], s => s
  | _ :: _, [] => []
  | w :: rest, s0 :: tail => (s0 - w + 1) :: w :: windowsShape rest tail

theorem mapExc_ok_of_forall (f : α → Except String β) :
    ∀ (l : List α), (∀ x ∈ l, ∃ b, f x = .ok b) →
    ∃ l2, mapExc f l = .ok l2 ∧ l2.length = l.length ∧
      ∀ b ∈ l2, ∃ x ∈ l, f x = .ok b := by
  intro l
  induction l with
  | nil => exact fun _ => ⟨[], rfl, rfl, by simp⟩
  | cons a as ih =>
    intro h
    obtain ⟨b, hb⟩ := h a (by simp)
    obtain ⟨l2, hl2, hlen2, hmem2⟩ := ih (fun x hx => h x (by simp [hx]))
    refine ⟨b :: l2, ?_, by simp [hlen2], ?_⟩
    · simp only [mapExc, hb, hl2]
    · intro c hc
      rcases List.mem_cons.mp hc with hc1 | hc2
      · exact ⟨a, by simp, by rw [hc1]; exact hb⟩
      · obtain ⟨x, hx, hfx⟩ := hmem2 c hc2
        exact ⟨x, by simp [hx], hfx⟩

theorem intoCells_length (s0 : Nat) (tail : List Nat) (d : List Val) :
    (Arr.mk (s0 :: tail) d).intoCells.length = s0 := by
  simp [Arr.intoCells]

theorem intoCells_shape_wf (s0 : Nat) (tail : List Nat) (d : List Val)
    (hwf : (Arr.mk (s0 :: tail) d).wf) :
    ∀ c ∈ (Arr.mk (s0 :: tail) d).intoCells, c.shape = tail ∧ c.wf := by
  intro c hc
  simp only [Arr.intoCells] at hc
  obtain ⟨i, hi, hic⟩ := List.mem_map.mp hc
  rw [List.mem_range] at hi
  rw [← hic]
  refine ⟨rfl, ?_⟩
  unfold Arr.wf at hwf ⊢
  simp only [List.prod_cons] at hwf
  simp only [List.length_take, List.length_drop]
  have h1 : (i + 1) * tail.prod ≤ s0 * tail.prod := Nat.mul_le_mul_right _ (by omega)
  have h2 : (i + 1) * tail.prod = i * tail.prod + tail.prod := by ring
  omega

theorem listWindows_length (w : Nat) (l : List α) :
    (listWindows w l).length = l.length + 1 - w := by
  simp [listWindows]

theorem listWindows_mem_length (w : Nat) (l : List α) (hw : w ≤ l.length) :
    ∀ x ∈ listWindows w l, x.length = w := by
  intro x hx
  simp only [listWindows] at hx
  obtain ⟨i, hi, hix⟩ := List.mem_map.mp hx
  rw [List.mem_range] at hi
  rw [← hix]
  simp only [List.length_take, List.length_drop]
  omega

theorem listWindows_mem_mem (w : Nat) (l : List α) :
    ∀ x ∈ listWindows w l, ∀ c ∈ x, c ∈ l := by
  intro x hx c hc
  simp only [listWindows] at hx
  obtain ⟨i, _, hix⟩ := List.mem_map.mp hx
  rw [← hix] at hc
  exact List.mem_of_mem_drop (List.mem_of_mem_take hc)

theorem arrFromCellArrays_uniform (τ : List Nat) (cells : List Arr)
    (hne : cells ≠ []) (hsh : ∀ c ∈ cells, c.shape = τ) :
    arrFromCellArrays cells = ⟨cells.length :: τ, (cells.map Arr.data).flatten⟩ := by
  unfold arrFromCellArrays
  cases cells with
  | nil => exact absurd rfl hne
  | cons c cs =>
    rw [show ((c :: cs).headD ⟨[], []⟩) = c from rfl, hsh c (by simp)]

theorem arrFromCellArrays_wf (τ : List Nat) (cells : List Arr)
    (hsh : ∀ c ∈ cells, c.shape = τ ∧ c.wf) :
    ((cells.map Arr.data).flatten).length = (cells.length :: τ).prod := by
  rw [flatten_length_uniform τ.prod (cells.map Arr.data) ?_]
  · rw [List.length_map, show (cells.length :: τ).prod = cells.length * τ.prod
      from List.prod_cons]
  · intro x hx
    obtain ⟨c, hc, hcx⟩ := List.mem_map.mp hx
    obtain ⟨hcs, hcwf⟩ := hsh c hc
    rw [← hcx]
    unfold Arr.wf at hcwf
    rw [hcwf, hcs]

/-- Success, well-formedness and shape of `array_windows` under the
claim's hypotheses: sizes positive, within rank, within extents. -/
theorem array_windows_ok : ∀ (sizes : List Nat) (a : Arr),
    a.wf → sizes.length ≤ a.shape.length →
    (∀ j (hj : j < sizes.length), 1 ≤ sizes.get ⟨j, hj⟩) →
    (∀ j (hj : j < sizes.length), sizes.get ⟨j, hj⟩ ≤ a.shape.getD j 0) →
    ∃ r, array_windows sizes a = .ok r ∧ r.wf ∧ r.shape = windowsShape sizes a.shape := by
  intro sizes
  induction sizes with
  | nil =>
    intro a hwf _ _ _
    exact ⟨a, rfl, hwf, rfl⟩
  | cons w rest ih =>
    intro a hwf hlen hpos hbound
    obtain ⟨shape, d⟩ := a
    cases shape with
    | nil => simp at hlen
    | cons s0 tail =>
      have hw1 : 1 ≤ w := hpos 0 (by simp)
      have hws : w ≤ s0 := by
        have := hbound 0 (by simp)
        simpa using this
      have hcells := intoCells_shape_wf s0 tail d hwf
      have hclen := intoCells_length s0 tail d
      have hwin : ∀ win ∈ listWindows w (Arr.mk (s0 :: tail) d).intoCells,
          ∃ rw2, (mapExc (array_windows rest) win).map arrFromCellArrays = .ok rw2 ∧
            rw2.wf ∧ rw2.shape = w :: windowsShape rest tail := by
        intro win hwinmem
        have hwlen : win.length = w :=
          listWindows_mem_length w _ (by rw [hclen]; exact hws) win hwinmem
        have hsub : ∀ c ∈ win, ∃ rc, array_windows rest c = .ok rc ∧ rc.wf ∧
            rc.shape = windowsShape rest tail := by
          intro c hc
          obtain ⟨hcs, hcwf⟩ :=
            hcells c (listWindows_mem_mem w _ win hwinmem c hc)
          have hr := ih c hcwf (by rw [hcs]; simpa using hlen)
            (fun j hj => hpos (j + 1) (by simpa using hj))
            (by
              intro j hj
              have := hbound (j + 1) (by simpa using hj)
              rw [hcs]
              simpa using this)
          rw [hcs] at hr
          exact hr
        obtain ⟨l2, hl2, hlen2, hmem2⟩ := mapExc_ok_of_forall (array_windows rest) win
          (fun c hc => by obtain ⟨rc, hok, _⟩ := hsub c hc; exact ⟨rc, hok⟩)
        have hl2props : ∀ b ∈ l2, b.shape = windowsShape rest tail ∧ b.wf := by
          intro b hb
          obtain ⟨c, hc, hfc⟩ := hmem2 b hb
          obtain ⟨rc, hok, hrcwf, hrcshape⟩ := hsub c hc
          rw [hok] at hfc
          have hbc : rc = b := Except.ok.inj hfc
          rw [← hbc]
          exact ⟨hrcshape, hrcwf⟩
        have hl2ne : l2 ≠ [] := by
          intro h
          rw [h] at hlen2
          simp only [List.length_nil] at hlen2
          omega
        rw [hl2]
        refine ⟨arrFromCellArrays l2, rfl, ?_, ?_⟩
        · unfold Arr.wf
          rw [arrFromCellArrays_uniform (windowsShape rest tail) l2 hl2ne
            (fun c hc => (hl2props c hc).1)]
          exact arrFromCellArrays_wf (windowsShape rest tail) l2
            (fun c hc => ⟨(hl2props c hc).1, (hl2props c hc).2⟩)
        · rw [arrFromCellArrays_uniform (windowsShape rest tail) l2 hl2ne
            (fun c hc => (hl2props c hc).1)]
          rw [show (Arr.mk (l2.length :: windowsShape rest tail)
              ((l2.map Arr.data).flatten)).shape
            = l2.length :: windowsShape rest tail from rfl]
          rw [hlen2, hwlen]
      obtain ⟨ws, hws2, hwslen, hwsmem⟩ := mapExc_ok_of_forall
        (fun win => (mapExc (array_windows rest) win).map arrFromCellArrays)
        (listWindows w (Arr.mk (s0 :: tail) d).intoCells)
        (fun win hw => by obtain ⟨rw2, hok, _⟩ := hwin win hw; exact ⟨rw2, hok⟩)
      have hwsprops : ∀ b ∈ ws, b.shape = w :: windowsShape rest tail ∧ b.wf := by
        intro b hb
        obtain ⟨win, hwm, hfw⟩ := hwsmem b hb
        obtain ⟨rw2, hok, hrwwf, hrwshape⟩ := hwin win hwm
        rw [hok] at hfw
        have hbw : rw2 = b := Except.ok.inj hfw
        rw [← hbw]
        exact ⟨hrwshape, hrwwf⟩
      have hwsne : ws ≠ [] := by
        intro h
        rw [h] at hwslen
        simp only [List.length_nil] at hwslen
        rw [listWindows_length, hclen] at hwslen
        omega
      simp only [array_windows]
      rw [if_pos hws, hws2]
      refine ⟨arrFromCellArrays ws, rfl, ?_, ?_⟩
      · unfold Arr.wf
        rw [arrFromCellArrays_uniform (w :: windowsShape rest tail) ws hwsne
          (fun c hc => (hwsprops c hc).1)]
        exact arrFromCellArrays_wf (w :: windowsShape rest tail) ws
          (fun c hc => ⟨(hwsprops c hc).1, (hwsprops c hc).2⟩)
      · rw [arrFromCellArrays_uniform (w :: windowsShape rest tail) ws hwsne
          (fun c hc => (hwsprops c hc).1)]
        rw [show (Arr.mk (ws.length :: w :: windowsShape rest tail)
            ((ws.map Arr.data).flatten)).shape
          = ws.length :: w :: windowsShape rest tail from rfl]
        rw [hwslen, listWindows_length, hclen]
        rw [show windowsShape (w :: rest) (s0 :: tail)
          = (s0 - w + 1) :: w :: windowsShape rest tail from rfl]
        rw [show s0 + 1 - w = s0 - w + 1 from by omega]

theorem flatten_map_singleton : ∀ (l : List α), (l.map (fun x => [x])).flatten = l := by
  intro l
  induction l with
  | nil => rfl
  | cons x xs ih => simp only [List.map_cons, List.flatten_cons, List.singleton_append, ih]

theorem mapExc_pure (l : List α) :
    mapExc (fun x => (Except.ok x : Except String α)) l = .ok l := by
  induction l with
  | nil => rfl
  | cons a as ih => simp only [mapExc, ih]

theorem listWindows_map (f : α → β) (w : Nat) (l : List α) :
    listWindows w (l.map f) = (listWindows w l).map (List.map f) := by
  simp only [listWindows, List.length_map, List.map_map]
  refine List.map_congr_left ?_
  intro i _
  simp [List.map_take, List.map_drop]

theorem intoCells_rank1 (s : Nat) (d : List Val) (h : d.length = s) :
    (Arr.mk [s] d).intoCells = d.map (fun x => Arr.mk [] [x]) := by
  apply List.ext_getElem
  · simp [Arr.intoCells, h]
  · intro i h1 h2
    have hi : i < d.length := by
      simp only [List.length_map] at h2
      exact h2
    simp only [Arr.intoCells, List.getElem_map, List.getElem_range]
    have hdrop : d.drop i = d[i] :: d.drop (i + 1) := List.drop_eq_getElem_cons hi
    simp only [List.prod_nil, mul_one]
    rw [hdrop]
    rfl

theorem arrFromCellArrays_singletons (ld : List Val) :
    arrFromCellArrays (ld.map (fun x => Arr.mk [] [x])) = ⟨[ld.length], ld⟩ := by
  unfold arrFromCellArrays
  have h1 : ((ld.map (fun x => Arr.mk [] [x])).map Arr.data) = ld.map (fun x => [x]) := by
    rw [List.map_map]
    rfl
  rw [h1, flatten_map_singleton]
  cases ld with
  | nil => rfl
  | cons x xs => simp

/-- At rank 1, `array_windows` lists every sliding window of the storage
in order of window start. -/
theorem array_windows_rank1 : ∀ (w s : Nat) (d : List Val), 1 ≤ w → w ≤ s → d.length = s →
    array_windows [w] ⟨[s], d⟩ = .ok ⟨[s + 1 - w, w], (listWindows w d).flatten⟩ := by
  intro w s d hw1 hws hlend
  simp only [array_windows]
  rw [if_pos hws]
  rw [intoCells_rank1 s d hlend, listWindows_map]
  have hmap : mapExc (fun win =>
        (mapExc (fun x => (Except.ok x : Except String Arr)) win).map arrFromCellArrays)
      ((listWindows w d).map (List.map (fun x => Arr.mk [] [x])))
      = .ok (((listWindows w d).map (List.map (fun x => Arr.mk [] [x]))).map
          arrFromCellArrays) := by
    apply mapExc_map_eq
    intro x _
    rw [mapExc_pure]
    rfl
  rw [hmap]
  have hcells : ((listWindows w d).map (List.map (fun x => Arr.mk [] [x]))).map
      arrFromCellArrays = (listWindows w d).map (fun winD => Arr.mk [w] winD) := by
    rw [List.map_map]
    refine List.map_congr_left ?_
    intro winD hmem
    show arrFromCellArrays (winD.map (fun x => Arr.mk [] [x])) = Arr.mk [w] winD
    rw [arrFromCellArrays_singletons,
      listWindows_mem_length w d (by omega) winD hmem]
  rw [hcells]
  have hwne : ((listWindows w d).map (fun winD => Arr.mk [w] winD)) ≠ [] := by
    intro h
    have h2 := congrArg List.length h
    rw [List.length_map, listWindows_length] at h2
    simp only [List.length_nil] at h2
    omega
  have hdata : (((listWindows w d).map (fun winD => Arr.mk [w] winD)).map Arr.data)
      = listWindows w d := by
    rw [List.map_map]
    exact List.map_id _
  have hfinal : arrFromCellArrays ((listWindows w d).map (fun winD => Arr.mk [w] winD))
      = Arr.mk [s + 1 - w, w] ((listWindows w d).flatten) := by
    rw [arrFromCellArrays_uniform [w] ((listWindows w d).map (fun winD => Arr.mk [w] winD))
      hwne (fun c hc => by
        obtain ⟨x, _, hx⟩ := List.mem_map.mp hc
        rw [← hx])]
    rw [hdata]
    rw [List.length_map, listWindows_length, hlend]
  exact congrArg Except.ok hfinal

/-- **C1.** Corrected: for positive window sizes within rank and within
every extent, `windows` succeeds and is well-formed, but the result shape
interleaves counts and extents — `[n₀, w₀, n₁, w₁, …, *tail]`, each axis
contributing its window count `nⱼ = sⱼ − wⱼ + 1` immediately followed by
its window extent `wⱼ` — not `[n₀, n₁, …, w₀, w₁, …, *tail]` as claimed
(see the counterexample).  At rank 1 the content is every sliding window
of the storage in order of window start. -/
theorem c1_windows_interleaved_shape (sizes : List Nat) (a : Arr)
    (hwf : a.wf) (hlen : sizes.length ≤ a.shape.length)
    (hpos : ∀ j (hj : j < sizes.length), 1 ≤ sizes.get ⟨j, hj⟩)
    (hbound : ∀ j (hj : j < sizes.length), sizes.get ⟨j, hj⟩ ≤ a.shape.getD j 0) :
    (∃ r, array_windows sizes a = .ok r ∧ r.wf ∧ r.shape = windowsShape sizes a.shape) ∧
    (∀ (w s : Nat) (d : List Val), 1 ≤ w → w ≤ s → d.length = s →
      array_windows [w] ⟨[s], d⟩ = .ok ⟨[s + 1 - w, w], (listWindows w d).flatten⟩) :=
  ⟨array_windows_ok sizes a hwf hlen hpos hbound, array_windows_rank1⟩

/-- **C1 (witness).** Windows of size 2 over the vector `[1,2,3,4]`:
shape `windowsShape [2] [4] = [3, 2]` and content `[1,2, 2,3, 3,4]`. -/
theorem c1_windows_interleaved_shape_witness :
    (∃ r, array_windows [2] ⟨[4], [.num 1, .num 2, .num 3, .num 4]⟩ = .ok r ∧ r.wf ∧
        r.shape = windowsShape [2] [4]) ∧
    array_windows [2] ⟨[4], [.num 1, .num 2, .num 3, .num 4]⟩
      = .ok ⟨[3, 2], [.num 1, .num 2, .num 2, .num 3, .num 3, .num 4]⟩ := by
  have h := c1_windows_interleaved_shape [2] ⟨[4], [.num 1, .num 2, .num 3, .num 4]⟩
    (by decide) (by decide)
    (by
      intro j hj
      have hj0 : j = 0 := by
        simp only [List.length_cons, List.length_nil] at hj
        omega
      subst hj0
      exact (by decide : (1 : Nat) ≤ 2))
    (by
      intro j hj
      have hj0 : j = 0 := by
        simp only [List.length_cons, List.length_nil] at hj
        omega
      subst hj0
      exact (by decide : (2 : Nat) ≤ 4))
  refine ⟨h.1, ?_⟩
  have h2 := h.2 2 4 [.num 1, .num 2, .num 3, .num 4] (by decide) (by decide) (by decide)
  rw [h2]
  rfl

/-- **C1 (counterexample).** Sizes `[2, 2]` on a 3×5 array: the code
produces shape `[2, 2, 4, 2]` (`[n₀, w₀, n₁, w₁]`, interleaved), not the
claimed `[2, 4, 2, 2]` (`[n₀, n₁, w₀, w₁]`). -/
theorem c1_counterexample_interleaved :
    (array_windows [2, 2] ⟨[3, 5], (List.range 15).map (fun n => .num (n : ℚ))⟩).map Arr.shape
      = .ok [2, 2, 4, 2] ∧ ([2, 2, 4, 2] : List Nat) ≠ [2, 4, 2, 2] :=
  ⟨by rfl, by decide⟩


/-- The rotation split point of `fn rotate`: `(s + i).rem_euclid(s)`. -/
def rotMid (s : Nat) (i : Int) : Nat := (((s : Int) + i).emod (s : Int)).toNat

theorem rotate_cons_zero (i : Int) (is : List Int) (s : Nat) (ss : List Nat)
    (data : List α) (hs : s = 0) :
    rotate (i :: is) (s :: ss) data = some data := by
  simp only [rotate]
  rw [if_pos hs]

theorem rotate_cons_base (i : Int) (is : List Int) (s : Nat) (ss : List Nat)
    (data : List α) (hs : s ≠ 0) (hbase : (is.isEmpty || ss.isEmpty) = true) :
    rotate (i :: is) (s :: ss) data
      = some (listRot (rotMid s i * (data.length / s)) data) := by
  simp only [rotate]
  rw [if_neg hs, if_pos hbase, threeRev_eq_listRot]
  rfl

theorem rotate_cons_rec (i : Int) (is : List Int) (s : Nat) (ss : List Nat)
    (data : List α) (hs : s ≠ 0) (h1 : is.isEmpty = false) (h2 : ss.isEmpty = false)
    (hcs : data.length / s ≠ 0) :
    rotate (i :: is) (s :: ss) data
      = (mapOpt (rotate is ss)
          (chunkList (data.length / s) (listRot (rotMid s i * (data.length / s)) data))).map
          List.flatten := by
  simp only [rotate]
  rw [if_neg hs, if_neg (by rw [h1, h2]; simp), if_neg hcs, threeRev_eq_listRot]
  rfl

theorem rotate_cons_cs0 (i : Int) (is : List Int) (s : Nat) (ss : List Nat)
    (data : List α) (hs : s ≠ 0) (h1 : is.isEmpty = false) (h2 : ss.isEmpty = false)
    (hcs : data.length / s = 0) :
    rotate (i :: is) (s :: ss) data = none := by
  simp only [rotate]
  rw [if_neg hs, if_neg (by rw [h1, h2]; simp), if_pos hcs]

/-- Range and complement behaviour of the euclidean split point. -/
theorem rotate_mid_cases (s : Nat) (hs : 0 < s) (i : Int) :
    rotMid s i < s ∧
    (rotMid s i = 0 → rotMid s (-i) = 0) ∧
    (rotMid s i ≠ 0 → rotMid s (-i) = s - rotMid s i) := by
  have hspos : (0 : Int) < (s : Int) := by exact_mod_cast hs
  have h1 : 0 ≤ ((s : Int) + i).emod (s : Int) := Int.emod_nonneg _ (ne_of_gt hspos)
  have h2 : ((s : Int) + i).emod (s : Int) < (s : Int) := Int.emod_lt_of_pos _ hspos
  have h3 : 0 ≤ ((s : Int) + (-i)).emod (s : Int) := Int.emod_nonneg _ (ne_of_gt hspos)
  have h4 : ((s : Int) + (-i)).emod (s : Int) < (s : Int) := Int.emod_lt_of_pos _ hspos
  have hsum : (((s : Int) + i).emod (s : Int)
      + ((s : Int) + (-i)).emod (s : Int)).emod (s : Int) = 0 := by
    show (((s : Int) + i) % (s : Int) + ((s : Int) + (-i)) % (s : Int)) % (s : Int) = 0
    rw [← Int.add_emod]
    rw [show (s : Int) + i + ((s : Int) + (-i)) = (s : Int) * 2 from by ring]
    exact Int.mul_emod_right _ _
  obtain ⟨k, hk⟩ := Int.dvd_of_emod_eq_zero hsum
  have hcases : ((s : Int) + i).emod (s : Int) + ((s : Int) + (-i)).emod (s : Int) = 0 ∨
      ((s : Int) + i).emod (s : Int) + ((s : Int) + (-i)).emod (s : Int) = (s : Int) := by
    rcases lt_trichotomy k 0 with h | h | h
    · have hneg : (s : Int) * k < 0 := mul_neg_of_pos_of_neg hspos h
      rw [← hk] at hneg
      omega
    · subst h
      left
      rw [hk]
      ring
    · by_cases hk1 : k = 1
      · subst hk1
        right
        rw [hk]
        ring
      · have hk2 : (2 : Int) ≤ k := by omega
        have hle : (s : Int) * 2 ≤ (s : Int) * k :=
          mul_le_mul_of_nonneg_left hk2 (le_of_lt hspos)
        rw [← hk] at hle
        omega
  unfold rotMid
  omega

theorem flatten_take_uniform (k : Nat) :
    ∀ (L : List (List α)), (∀ p ∈ L, p.length = k) →
      ∀ m, (L.take m).flatten = L.flatten.take (m * k) := by
  intro L
  induction L with
  | nil => intro _ m; simp
  | cons p ps ih =>
    intro h m
    cases m with
    | zero => simp
    | succ n =>
      simp only [List.take_succ_cons, List.flatten_cons]
      rw [List.take_append_eq_append_take]
      have hp : p.length = k := h p (by simp)
      have hk1 : k ≤ (n + 1) * k := by
        calc k = 1 * k := by ring
          _ ≤ (n + 1) * k := Nat.mul_le_mul_right k (by omega)
      have htp : p.take ((n + 1) * k) = p := List.take_of_length_le (by omega)
      rw [htp, hp]
      rw [show (n + 1) * k - k = n * k from by rw [Nat.succ_mul]; omega]
      rw [ih (fun q hq => h q (by simp [hq])) n]

theorem flatten_drop_uniform (k : Nat) :
    ∀ (L : List (List α)), (∀ p ∈ L, p.length = k) →
      ∀ m, (L.drop m).flatten = L.flatten.drop (m * k) := by
  intro L
  induction L with
  | nil => intro _ m; simp
  | cons p ps ih =>
    intro h m
    cases m with
    | zero => simp
    | succ n =>
      simp only [List.drop_succ_cons, List.flatten_cons]
      rw [List.drop_append_eq_append_drop]
      have hp : p.length = k := h p (by simp)
      have hk1 : k ≤ (n + 1) * k := by
        calc k = 1 * k := by ring
          _ ≤ (n + 1) * k := Nat.mul_le_mul_right k (by omega)
      have hdp : p.drop ((n + 1) * k) = [] := List.drop_eq_nil_of_le (by omega)
      rw [hdp, hp]
      rw [show (n + 1) * k - k = n * k from by rw [Nat.succ_mul]; omega]
      rw [ih (fun q hq => h q (by simp [hq])) n]
      rfl

theorem flatten_listRot_uniform (k : Nat) (L : List (List α))
    (h : ∀ p ∈ L, p.length = k) (m : Nat) :
    (listRot m L).flatten = listRot (m * k) L.flatten := by
  unfold listRot
  rw [List.flatten_append, flatten_take_uniform k L h m, flatten_drop_uniform k L h m]

theorem chunkList_flatten_uniform (k : Nat) (hk : k ≠ 0) :
    ∀ (L : List (List α)), (∀ p ∈ L, p.length = k) → chunkList k L.flatten = L := by
  intro L
  induction L with
  | nil => simp [chunkList_nil]
  | cons p ps ih =>
    intro h
    have hp : p.length = k := h p (by simp)
    have hne : p ++ ps.flatten ≠ [] := by
      intro hcontra
      have hlc := congrArg List.length hcontra
      simp only [List.length_append, List.length_nil] at hlc
      omega
    rw [List.flatten_cons, chunkList_step k hk _ hne]
    rw [List.take_left' hp, List.drop_left' hp]
    rw [ih (fun q hq => h q (by simp [hq]))]

theorem forall₂_swap_imp {R : α → β → Prop} {S : β → α → Prop} :
    ∀ {l1 : List α} {l2 : List β}, (∀ a ∈ l1, ∀ b, R a b → S b a) →
      List.Forall₂ R l1 l2 → List.Forall₂ S l2 l1 := by
  intro l1 l2 himp h
  induction h with
  | nil => exact .nil
  | cons ha htail ih =>
    refine .cons (himp _ (by simp) _ ha) (ih ?_)
    intro a hmem b hab
    exact himp a (by simp [hmem]) b hab

theorem forall₂_take2 {R : α → β → Prop} :
    ∀ {l1 : List α} {l2 : List β}, List.Forall₂ R l1 l2 →
      ∀ n, List.Forall₂ R (l1.take n) (l2.take n) := by
  intro l1 l2 h
  induction h with
  | nil =>
    intro n
    rw [List.take_nil, List.take_nil]
    exact .nil
  | cons ha htail ih =>
    intro n
    cases n with
    | zero => exact .nil
    | succ m => exact .cons ha (ih m)

theorem forall₂_drop2 {R : α → β → Prop} :
    ∀ {l1 : List α} {l2 : List β}, List.Forall₂ R l1 l2 →
      ∀ n, List.Forall₂ R (l1.drop n) (l2.drop n) := by
  intro l1 l2 h
  induction h with
  | nil =>
    intro n
    rw [List.drop_nil, List.drop_nil]
    exact .nil
  | cons ha htail ih =>
    intro n
    cases n with
    | zero => exact .cons ha htail
    | succ m => exact ih m

theorem forall₂_append2 {R : α → β → Prop} :
    ∀ {a1 : List α} {b1 : List β}, List.Forall₂ R a1 b1 →
      ∀ {a2 : List α} {b2 : List β}, List.Forall₂ R a2 b2 →
        List.Forall₂ R (a1 ++ a2) (b1 ++ b2) := by
  intro a1 b1 h
  induction h with
  | nil => intro a2 b2 h2; exact h2
  | cons ha htail ih =>
    intro a2 b2 h2
    exact .cons ha (ih h2)

theorem forall₂_listRot {R : α → β → Prop} {l1 : List α} {l2 : List β}
    (h : List.Forall₂ R l1 l2) (m : Nat) :
    List.Forall₂ R (listRot m l1) (listRot m l2) :=
  forall₂_append2 (forall₂_drop2 h m) (forall₂_take2 h m)


theorem forall₂_imp_mem {R S : α → β → Prop} :
    ∀ {l1 : List α} {l2 : List β}, (∀ a ∈ l1, ∀ b, R a b → S a b) →
      List.Forall₂ R l1 l2 → List.Forall₂ S l1 l2 := by
  intro l1 l2 himp h
  induction h with
  | nil => exact .nil
  | cons ha htail ih =>
    refine .cons (himp _ (by simp) _ ha) (ih ?_)
    intro a hmem b hab
    exact himp a (by simp [hmem]) b hab

theorem forall₂_mem_right {R : α → β → Prop} :
    ∀ {l1 : List α} {l2 : List β}, List.Forall₂ R l1 l2 →
      ∀ b ∈ l2, ∃ a ∈ l1, R a b := by
  intro l1 l2 h
  induction h with
  | nil => simp
  | cons ha htail ih =>
    intro b hb
    rcases List.mem_cons.mp hb with hb1 | hb2
    · exact ⟨_, by simp, hb1 ▸ ha⟩
    · obtain ⟨a, hmem, hr⟩ := ih b hb2
      exact ⟨a, by simp [hmem], hr⟩

theorem flatten_length_eq_of_forall₂ {l1 l2 : List (List α)}
    (h : List.Forall₂ (fun c p => p.length = c.length) l1 l2) :
    l2.flatten.length = l1.flatten.length := by
  induction h with
  | nil => rfl
  | cons ha htail ih => simp [ha, ih]

/-- `fn rotate` preserves the storage length on success (for well-formed
data). -/
theorem rotate_length : ∀ (index : List Int) (shape : List Nat) (data d : List α),
    data.length = shape.prod → rotate index shape data = some d →
    d.length = data.length := by
  intro index
  induction index with
  | nil =>
    intro shape data d _ h
    cases shape with
    | nil => simp [rotate] at h
    | cons s ss => simp [rotate] at h
  | cons i is ih =>
    intro shape data d hwf h
    cases shape with
    | nil => simp [rotate] at h
    | cons s ss =>
      by_cases hs : s = 0
      · rw [rotate_cons_zero i is s ss data hs] at h
        rw [← Option.some.inj h]
      · have hs' : 0 < s := Nat.pos_of_ne_zero hs
        have hcs : data.length / s = ss.prod := by
          rw [hwf, List.prod_cons, Nat.mul_div_cancel_left _ hs']
        by_cases hbase : (is.isEmpty || ss.isEmpty) = true
        · rw [rotate_cons_base i is s ss data hs hbase] at h
          rw [← Option.some.inj h, listRot_length]
        · simp only [Bool.or_eq_true, not_or, Bool.not_eq_true] at hbase
          by_cases hcs0 : data.length / s = 0
          · rw [rotate_cons_cs0 i is s ss data hs hbase.1 hbase.2 hcs0] at h
            simp at h
          · rw [rotate_cons_rec i is s ss data hs hbase.1 hbase.2 hcs0] at h
            rw [hcs] at h hcs0
            cases hmo : mapOpt (rotate is ss)
                (chunkList ss.prod (listRot (rotMid s i * ss.prod) data)) with
            | none => rw [hmo] at h; simp at h
            | some parts =>
              rw [hmo] at h
              have hd : parts.flatten = d := by simpa using h
              have hforall := mapOpt_eq_some_iff.mp hmo
              have hlen2 : data.length = s * ss.prod := by rw [hwf, List.prod_cons]
              have hd0len : (listRot (rotMid s i * ss.prod) data).length = s * ss.prod := by
                rw [listRot_length, hlen2]
              have hdvd : ss.prod ∣ (listRot (rotMid s i * ss.prod) data).length :=
                ⟨s, by rw [hd0len, Nat.mul_comm]⟩
              have hcellslen : ∀ c ∈ chunkList ss.prod (listRot (rotMid s i * ss.prod) data),
                  c.length = ss.prod :=
                chunkList_mem_length ss.prod hcs0 _ hdvd
              have hpartlen : List.Forall₂ (fun c p => p.length = c.length)
                  (chunkList ss.prod (listRot (rotMid s i * ss.prod) data)) parts :=
                forall₂_imp_mem
                  (fun c hc p hrot => ih ss c p (by rw [hcellslen c hc]) hrot) hforall
              rw [← hd]
              rw [flatten_length_eq_of_forall₂ hpartlen]
              rw [chunkList_flatten ss.prod hcs0 _ hdvd, listRot_length]

/-- The two euclidean split points cancel: rotating back by the negated
offset restores the storage. -/
theorem listRot_mid_inv (s : Nat) (hs : 0 < s) (i : Int) (cs : Nat) (data : List α)
    (hlen : data.length = s * cs) :
    listRot (rotMid s (-i) * cs) (listRot (rotMid s i * cs) data) = data := by
  obtain ⟨hmidlt, hmid0, hmidn⟩ := rotate_mid_cases s hs i
  by_cases hm : rotMid s i = 0
  · rw [hm, hmid0 hm]
    simp [listRot_zero]
  · rw [hmidn hm]
    have hmle : rotMid s i * cs ≤ data.length := by
      rw [hlen]
      exact Nat.mul_le_mul_right _ (le_of_lt hmidlt)
    have hsub : (s - rotMid s i) * cs = data.length - rotMid s i * cs := by
      rw [hlen, Nat.sub_mul]
    rw [hsub]
    exact listRot_inv (rotMid s i * cs) data hmle

/-- **P5 at the kernel level.** On well-formed storage, a successful
`rotate` is undone by `rotate` with every index negated. -/
theorem rotate_rotate_neg : ∀ (index : List Int) (shape : List Nat) (data d : List α),
    data.length = shape.prod →
    rotate index shape data = some d →
    rotate (index.map (fun x => -x)) shape d = some data := by
  intro index
  induction index with
  | nil =>
    intro shape data d _ h
    cases shape with
    | nil => simp [rotate] at h
    | cons s ss => simp [rotate] at h
  | cons i is ih =>
    intro shape data d hwf h
    cases shape with
    | nil => simp [rotate] at h
    | cons s ss =>
      rw [List.map_cons]
      by_cases hs : s = 0
      · rw [rotate_cons_zero i is s ss data hs] at h
        rw [rotate_cons_zero (-i) (is.map (fun x => -x)) s ss d hs]
        rw [Option.some.inj h]
      · have hs' : 0 < s := Nat.pos_of_ne_zero hs
        have hcs : data.length / s = ss.prod := by
          rw [hwf, List.prod_cons, Nat.mul_div_cancel_left _ hs']
        have hlen2 : data.length = s * ss.prod := by rw [hwf, List.prod_cons]
        by_cases hbase : (is.isEmpty || ss.isEmpty) = true
        · rw [rotate_cons_base i is s ss data hs hbase] at h
          have hd : listRot (rotMid s i * (data.length / s)) data = d := Option.some.inj h
          have hbase2 : ((is.map (fun x => -x)).isEmpty || ss.isEmpty) = true := by
            cases is <;> simpa using hbase
          rw [rotate_cons_base (-i) (is.map (fun x => -x)) s ss d hs hbase2]
          rw [← hd, listRot_length, hcs]
          exact congrArg some (listRot_mid_inv s hs' i ss.prod data hlen2)
        · simp only [Bool.or_eq_true, not_or, Bool.not_eq_true] at hbase
          by_cases hcs0 : data.length / s = 0
          · rw [rotate_cons_cs0 i is s ss data hs hbase.1 hbase.2 hcs0] at h
            simp at h
          · rw [rotate_cons_rec i is s ss data hs hbase.1 hbase.2 hcs0] at h
            rw [hcs] at h hcs0
            cases hmo : mapOpt (rotate is ss)
                (chunkList ss.prod (listRot (rotMid s i * ss.prod) data)) with
            | none => rw [hmo] at h; simp at h
            | some parts =>
              rw [hmo] at h
              have hd : parts.flatten = d := by simpa using h
              have hforall := mapOpt_eq_some_iff.mp hmo
              have hd0len : (listRot (rotMid s i * ss.prod) data).length = s * ss.prod := by
                rw [listRot_length, hlen2]
              have hdvd : ss.prod ∣ (listRot (rotMid s i * ss.prod) data).length :=
                ⟨s, by rw [hd0len, Nat.mul_comm]⟩
              have hcellslen : ∀ c ∈ chunkList ss.prod (listRot (rotMid s i * ss.prod) data),
                  c.length = ss.prod :=
                chunkList_mem_length ss.prod hcs0 _ hdvd
              have hplen : ∀ p ∈ parts, p.length = ss.prod := by
                intro p hp
                obtain ⟨c, hc, hrot⟩ := forall₂_mem_right hforall p hp
                rw [rotate_length is ss c p (by rw [hcellslen c hc]) hrot]
                exact hcellslen c hc
              have hchlen : (chunkList ss.prod (listRot (rotMid s i * ss.prod) data)).length
                  = s := by
                rw [chunkList_length ss.prod hcs0 _ hdvd, hd0len,
                  Nat.mul_div_cancel _ (Nat.pos_of_ne_zero hcs0)]
              have hplength : parts.length = s := by
                rw [← List.Forall₂.length_eq hforall, hchlen]
              have hdlen : d.length = s * ss.prod := by
                rw [← hd, flatten_length_uniform ss.prod parts hplen, hplength]
              have hb2 : (is.map (fun x => -x)).isEmpty = false := by
                cases is with
                | nil => simp at hbase
                | cons a as => rfl
              have hcs2 : d.length / s = ss.prod := by
                rw [hdlen, Nat.mul_div_cancel_left _ hs']
              rw [rotate_cons_rec (-i) (is.map (fun x => -x)) s ss d hs hb2 hbase.2
                (by rw [hcs2]; exact hcs0)]
              rw [hcs2, ← hd]
              have hchunkflat : chunkList ss.prod parts.flatten = parts :=
                chunkList_flatten_uniform ss.prod hcs0 parts hplen
              have hpflen : ss.prod ∣ parts.flatten.length := by
                rw [flatten_length_uniform ss.prod parts hplen]
                exact ⟨parts.length, Nat.mul_comm _ _⟩
              obtain ⟨hmidlt, hmid0, hmidn⟩ := rotate_mid_cases s hs' i
              have hmid2le : rotMid s (-i) ≤ s := by
                by_cases hm : rotMid s i = 0
                · rw [hmid0 hm]
                  omega
                · rw [hmidn hm]
                  omega
              have hcommute : chunkList ss.prod (listRot (rotMid s (-i) * ss.prod) parts.flatten)
                  = listRot (rotMid s (-i)) parts := by
                rw [chunkList_listRot ss.prod hcs0 (rotMid s (-i)) parts.flatten hpflen
                  (by
                    rw [flatten_length_uniform ss.prod parts hplen, hplength]
                    exact Nat.mul_le_mul_right _ hmid2le)]
                rw [hchunkflat]
              rw [hcommute]
              have hswap : List.Forall₂ (fun p c => rotate (is.map (fun x => -x)) ss p = some c)
                  parts (chunkList ss.prod (listRot (rotMid s i * ss.prod) data)) :=
                forall₂_swap_imp
                  (fun c hc p hrot => ih ss c p (by rw [hcellslen c hc]) hrot) hforall
              have hmo2 : mapOpt (rotate (is.map (fun x => -x)) ss)
                  (listRot (rotMid s (-i)) parts)
                  = some (listRot (rotMid s (-i))
                      (chunkList ss.prod (listRot (rotMid s i * ss.prod) data))) :=
                mapOpt_eq_some_iff.mpr (forall₂_listRot hswap _)
              rw [hmo2]
              show some ((listRot (rotMid s (-i))
                  (chunkList ss.prod (listRot (rotMid s i * ss.prod) data))).flatten)
                = some data
              rw [flatten_listRot_uniform ss.prod _ hcellslen (rotMid s (-i))]
              rw [chunkList_flatten ss.prod hcs0 _ hdvd]
              exact congrArg some (listRot_mid_inv s hs' i ss.prod data hlen2)


theorem listRot_getD (m : Nat) (l : List α) (x : α) (hm : m ≤ l.length)
    (k : Nat) (hk : k < l.length) :
    (listRot m l).getD k x = l.getD ((k + m) % l.length) x := by
  unfold listRot
  by_cases hcase : k < l.length - m
  · rw [List.getD_append _ _ _ _ (by simp only [List.length_drop]; omega)]
    have h1 : (l.drop m).getD k x = l.getD (m + k) x := by
      rw [List.getD_eq_getElem _ _ (by simp only [List.length_drop]; omega),
        List.getD_eq_getElem _ _ (by omega)]
      simp [List.getElem_drop]
    rw [h1, Nat.mod_eq_of_lt (by omega), Nat.add_comm]
  · push_neg at hcase
    rw [List.getD_append_right _ _ _ _ (by simp only [List.length_drop]; omega)]
    simp only [List.length_drop]
    have h1 : (l.take m).getD (k - (l.length - m)) x = l.getD (k - (l.length - m)) x := by
      rw [List.getD_eq_getElem _ _ (by simp only [List.length_take]; omega),
        List.getD_eq_getElem _ _ (by omega)]
      simp [List.getElem_take]
    rw [h1]
    have hmod : (k + m) % l.length = k - (l.length - m) := by
      have h2 : k + m = (k - (l.length - m)) + l.length := by omega
      rw [h2, Nat.add_mod_right]
      exact Nat.mod_eq_of_lt (by omega)
    rw [hmod]

/-- At rank 1, the rotated cell at position `k` is the original cell at
position `(k + i).rem_euclid(s)`. -/
theorem rotate_rank1_getD (s : Nat) (i : Int) (l d2 : List Val)
    (hs : 0 < s) (hlen : l.length = s)
    (hrot : rotate [i] [s] l = some d2) :
    ∀ k, k < s →
      d2.getD k (.num 0) = l.getD ((((k : Int) + i).emod (s : Int)).toNat) (.num 0) := by
  intro k hk
  rw [rotate_cons_base i [] s [] l (by omega) (by rfl)] at hrot
  have hd : listRot (rotMid s i * (l.length / s)) l = d2 := Option.some.inj hrot
  rw [← hd, hlen, Nat.div_self hs, Nat.mul_one]
  have hmidlt : rotMid s i < s := (rotate_mid_cases s hs i).1
  rw [listRot_getD (rotMid s i) l (.num 0) (by omega) k (by omega)]
  congr 1
  rw [hlen]
  have hspos : (0 : Int) < (s : Int) := by exact_mod_cast hs
  have hmid : (rotMid s i : Int) = ((s : Int) + i).emod (s : Int) := by
    unfold rotMid
    exact Int.toNat_of_nonneg (Int.emod_nonneg _ (ne_of_gt hspos))
  have key : (((k + rotMid s i) % s : Nat) : Int) = ((k : Int) + i).emod (s : Int) := by
    push_cast
    rw [hmid]
    show ((k : Int) + ((s : Int) + i) % (s : Int)) % (s : Int) = ((k : Int) + i) % (s : Int)
    rw [Int.add_emod (k : Int) (((s : Int) + i) % (s : Int)),
      Int.emod_emod_of_dvd _ dvd_rfl, ← Int.add_emod]
    rw [show (k : Int) + ((s : Int) + i) = (k : Int) + i + (s : Int) * 1 from by ring]
    rw [Int.add_mul_emod_self_left]
  have hton : ((((k : Int) + i).emod (s : Int)).toNat : Int)
      = (((k + rotMid s i) % s : Nat) : Int) := by
    rw [key]
    exact Int.toNat_of_nonneg (Int.emod_nonneg _ (ne_of_gt hspos))
  omega

theorem map_neg_all_zero (index : List Int) :
    (index.map (fun i => -i)).all (fun x => decide (x = 0))
      = index.all (fun x => decide (x = 0)) := by
  induction index with
  | nil => rfl
  | cons a as iha =>
    simp only [List.map_cons, List.all_cons, iha]
    congr 1
    simp [neg_eq_zero]

/-- **C8.** Confirmed for well-formed array storage: a successful
`rotate(I, A)` is undone by `rotate(−I, ·)` — the second call succeeds and
returns `A` — and along an axis of extent `s` the new cell at position `k`
holds the old cell at position `(k + i).rem_euclid(s)` (shown at rank 1,
where cells are single elements). -/
theorem c8_rotate_inverse (index : List Int) (v w : Val)
    (hwf : ∀ shape data, v = .arr shape data → data.length = shape.prod)
    (hrot : valueRotate index v = some w) :
    valueRotate (index.map (fun i => -i)) w = some v ∧
    (∀ (s : Nat) (i : Int) (l d2 : List Val), 0 < s → l.length = s →
      rotate [i] [s] l = some d2 →
      ∀ k, k < s →
        d2.getD k (.num 0) = l.getD ((((k : Int) + i).emod (s : Int)).toNat) (.num 0)) := by
  refine ⟨?_, fun s i l d2 hs hlen hr k hk => rotate_rank1_getD s i l d2 hs hlen hr k hk⟩
  have hmapempty : (index.map (fun i => -i)).isEmpty = index.isEmpty := by
    cases index <;> rfl
  have hmapall := map_neg_all_zero index
  unfold valueRotate at hrot ⊢
  by_cases hcond : (index.isEmpty || index.all (fun x => decide (x = 0))) = true
  · rw [if_pos hcond] at hrot
    have hw : v = w := Option.some.inj hrot
    rw [if_pos (by rw [hmapempty, hmapall]; exact hcond)]
    exact congrArg some hw.symm
  · rw [if_neg hcond] at hrot
    rw [if_neg (by rw [hmapempty, hmapall]; exact hcond)]
    cases v with
    | num q =>
      have hw : Val.num q = w := Option.some.inj hrot
      subst hw
      rfl
    | ch c =>
      have hw : Val.ch c = w := Option.some.inj hrot
      subst hw
      rfl
    | func n =>
      have hw : Val.func n = w := Option.some.inj hrot
      subst hw
      rfl
    | arr shape data =>
      have hrot2 : (if shape = [0] then some (Val.arr shape data)
          else (rotate index shape data).map (Val.arr shape)) = some w := hrot
      by_cases hsh : shape = [0]
      · rw [if_pos hsh] at hrot2
        have hw : Val.arr shape data = w := Option.some.inj hrot2
        subst hw
        show (if shape = [0] then some (Val.arr shape data)
          else (rotate (index.map (fun i => -i)) shape data).map (Val.arr shape))
          = some (Val.arr shape data)
        rw [if_pos hsh]
      · rw [if_neg hsh] at hrot2
        cases hro : rotate index shape data with
        | none =>
          rw [hro] at hrot2
          simp at hrot2
        | some dd =>
          rw [hro] at hrot2
          have hw : Val.arr shape dd = w := by simpa using hrot2
          subst hw
          show (if shape = [0] then some (Val.arr shape dd)
            else (rotate (index.map (fun i => -i)) shape dd).map (Val.arr shape))
            = some (Val.arr shape data)
          rw [if_neg hsh]
          rw [rotate_rotate_neg index shape data dd (hwf shape data rfl) hro]
          rfl

/-- **C8 (witness).** Rotating `[10,20,30,40]` by 1 and back by −1
restores the original array. -/
theorem c8_rotate_inverse_witness :
    valueRotate (([1] : List Int).map (fun i => -i))
        (.arr [4] [.num 20, .num 30, .num 40, .num 10])
      = some (.arr [4] [.num 10, .num 20, .num 30, .num 40]) :=
  (c8_rotate_inverse [1] (.arr [4] [.num 10, .num 20, .num 30, .num 40])
    (.arr [4] [.num 20, .num 30, .num 40, .num 10])
    (by
      intro shape data h
      injection h with h1 h2
      subst h1
      subst h2
      decide)
    (by rfl)).1

end Uiua
